import Mathlib

/-!
Verification of the CMSIS-DSP variance kernel `arm_var_f32`
(src/tracker/software/CMSIS/DSP/StatisticsFunctions/arm_var_f32.c).

The kernel computes the unbiased sample variance of a vector of IEEE-754
binary32 (float32) values by the two-pass method, with a 4-way unrolled
code path for Cortex-M4/M7 and a plain one-element-at-a-time path for
Cortex-M0/M3.

The development models binary32 arithmetic exactly, over integers so that
every concrete computation is kernel-decidable:

* `F32` is the value space: NaN (all NaN payloads identified), signed
  infinities, signed zeros, and finite nonzero values `fin m e` denoting
  the rational `m * 2^e`.  Arithmetic always produces the canonical
  (IEEE-encoded) representation, so structural equality of results is
  bit-equality.
* `roundQ num den E` rounds the rational `(num/den) * 2^E` to the nearest
  binary32 value with ties to even, honouring gradual underflow (subnormal
  results, round to a multiple of `2^-149`) and overflow to infinity at
  `2^128`, exactly as IEEE-754 round-to-nearest-even prescribes.
* `F32.add`, `F32.sub`, `F32.mul`, `F32.div` implement the IEEE special
  cases (NaN propagation, infinity and signed-zero rules) and defer to
  `roundQ` on finite operands.

The two build paths of the C function are `arm_var_f32` (unrolled,
Cortex-M4/M7 — the configuration this repository builds) and
`arm_var_f32_cm0_cm3`; the loops are modelled one-to-one, with the pointer
`pInput` made explicit as a numeric index.
-/

set_option maxRecDepth 4000

/-- Fuel-driven binary logarithm on `ℕ`: `natLog2F fuel n` is `⌊log₂ n⌋`
provided `1 ≤ n ≤ fuel`.  Structural recursion on the fuel keeps it
kernel-reducible. -/
def natLog2F : ℕ → ℕ → ℕ
  | 0, _ => 0
  | fuel+1, n => if n ≤ 1 then 0 else natLog2F fuel (n / 2) + 1

/-- Floor of the binary logarithm of a positive natural number. -/
def natLog2 (n : ℕ) : ℕ := natLog2F n n

/-- Decides `2^k ≤ a / b` for naturals `a b ≥ 1` and an integer `k`. -/
def le_pow2 (a b : ℕ) (k : ℤ) : Bool :=
  if 0 ≤ k then decide (b * 2 ^ k.toNat ≤ a) else decide (b ≤ a * 2 ^ (-k).toNat)

/-- Floor of the binary logarithm of the positive rational `a / b`. -/
def qfloorLog2 (a b : ℕ) : ℤ :=
  let k : ℤ := (natLog2 a : ℤ) - (natLog2 b : ℤ)
  if le_pow2 a b k then k else k - 1

/-- IEEE-754 binary32 values.  `fin m e` denotes the real number `m * 2^e`;
values produced by the arithmetic are canonical: `2^23 ≤ |m| < 2^24`, or
`e = -149` and `0 < |m| < 2^24` (subnormal). -/
inductive F32 where
  | nan : F32
  | inf : Bool → F32
  | zero : Bool → F32
  | fin : ℤ → ℤ → F32
deriving DecidableEq

/-- Round the nonnegative rational `N / D` to the nearest integer, ties to
even. -/
def rneND (N D : ℕ) : ℕ :=
  if 2 * (N % D) < D then N / D
  else if D < 2 * (N % D) then N / D + 1
  else (if 2 ∣ N / D then N / D else N / D + 1)

/-- Exponent of the rounding target: the binary32 value nearest to a
number `v` with `2^L ≤ |v| < 2^(L+1)` (where `L = qfloorLog2 a b + E`) is
a multiple of `2^(L-23)`, clamped at the subnormal quantum `2^-149`. -/
def etF32 (a b : ℕ) (E : ℤ) : ℤ := max (qfloorLog2 a b + E - 23) (-149)

/-- Numerator of `(a / b) * 2^(E - et)` written as a ratio of naturals. -/
def numScaled (a : ℕ) (E et : ℤ) : ℕ :=
  if 0 ≤ E - et then a * 2 ^ (E - et).toNat else a

/-- Denominator of `(a / b) * 2^(E - et)` written as a ratio of
naturals. -/
def denScaled (b : ℕ) (E et : ℤ) : ℕ :=
  if 0 ≤ E - et then b else b * 2 ^ (et - E).toNat

/-- Round the rational `(num / den) * 2^E` (with `den > 0`, `num ≠ 0`
intended) to the nearest binary32 value, ties to even, with gradual
underflow and overflow to infinity, as IEEE-754 round-to-nearest-even
prescribes.  Everything is integer arithmetic so the kernel can evaluate
it.

Packaging of the rounded magnitude `n0 * 2^et` (with sign `sg`) into a
binary32 value: zero on total underflow, carry into the next binade when
the mantissa rounded up to `2^24`, infinity on overflow (top exponent
105 = 128 - 23), and a finite value otherwise; `roundQ` computes the
rounded mantissa with `rneND` and packages it with `roundFin`. -/
def roundFin (sg : Bool) (n0 : ℕ) (et : ℤ) : F32 :=
  if n0 = 0 then F32.zero sg
  else if n0 = 2 ^ 24 then
    (if 105 ≤ et + 1 then F32.inf sg
     else F32.fin (if sg then -(2 ^ 23 : ℤ) else 2 ^ 23) (et + 1))
  else if 105 ≤ et then F32.inf sg
  else F32.fin (if sg then -(n0 : ℤ) else (n0 : ℤ)) et

def roundQ (num den E : ℤ) : F32 :=
  roundFin (decide (num < 0))
    (rneND (numScaled num.natAbs E (etF32 num.natAbs den.natAbs E))
      (denScaled den.natAbs E (etF32 num.natAbs den.natAbs E)))
    (etF32 num.natAbs den.natAbs E)

/-- Negation: flips every sign bit (IEEE negation). -/
def F32.neg : F32 → F32
  | F32.nan => F32.nan
  | F32.inf s => F32.inf (!s)
  | F32.zero s => F32.zero (!s)
  | F32.fin m e => F32.fin (-m) e

/-- Align two finite operands on the smaller exponent and add the
mantissas exactly.  Returns the pair (integer sum, common exponent). -/
def F32.alignS (m1 e1 m2 e2 : ℤ) : ℤ :=
  if e2 ≤ e1 then m1 * 2 ^ (e1 - e2).toNat + m2 else m1 + m2 * 2 ^ (e2 - e1).toNat

/-- IEEE-754 binary32 addition, round-to-nearest-even.  Finite sums are
formed exactly and rounded once; an exact zero sum yields `+0`, and the
signed-zero/infinity/NaN special cases follow IEEE-754. -/
def F32.add : F32 → F32 → F32
  | F32.nan, _ => F32.nan
  | F32.inf _, F32.nan => F32.nan
  | F32.inf s, F32.inf t => if s = t then F32.inf s else F32.nan
  | F32.inf s, F32.zero _ => F32.inf s
  | F32.inf s, F32.fin _ _ => F32.inf s
  | F32.zero _, F32.nan => F32.nan
  | F32.zero _, F32.inf t => F32.inf t
  | F32.zero s, F32.zero t => F32.zero (s && t)
  | F32.zero _, F32.fin m e => F32.fin m e
  | F32.fin _ _, F32.nan => F32.nan
  | F32.fin _ _, F32.inf t => F32.inf t
  | F32.fin m e, F32.zero _ => F32.fin m e
  | F32.fin m1 e1, F32.fin m2 e2 =>
    let S := F32.alignS m1 e1 m2 e2
    if S = 0 then F32.zero false else roundQ S 1 (min e1 e2)

/-- IEEE-754 binary32 subtraction, defined as `x + (-y)` (which agrees
with the IEEE subtraction operation in every case). -/
def F32.sub (x y : F32) : F32 := F32.add x (F32.neg y)

/-- IEEE-754 binary32 multiplication, round-to-nearest-even. -/
def F32.mul : F32 → F32 → F32
  | F32.nan, _ => F32.nan
  | F32.inf _, F32.nan => F32.nan
  | F32.inf s, F32.inf t => F32.inf (Bool.xor s t)
  | F32.inf _, F32.zero _ => F32.nan
  | F32.inf s, F32.fin m _ => F32.inf (Bool.xor s (decide (m < 0)))
  | F32.zero _, F32.nan => F32.nan
  | F32.zero _, F32.inf _ => F32.nan
  | F32.zero s, F32.zero t => F32.zero (Bool.xor s t)
  | F32.zero s, F32.fin m _ => F32.zero (Bool.xor s (decide (m < 0)))
  | F32.fin _ _, F32.nan => F32.nan
  | F32.fin m _, F32.inf t => F32.inf (Bool.xor (decide (m < 0)) t)
  | F32.fin m _, F32.zero t => F32.zero (Bool.xor (decide (m < 0)) t)
  | F32.fin m1 e1, F32.fin m2 e2 => roundQ (m1 * m2) 1 (e1 + e2)

/-- IEEE-754 binary32 division, round-to-nearest-even. -/
def F32.div : F32 → F32 → F32
  | F32.nan, _ => F32.nan
  | F32.inf _, F32.nan => F32.nan
  | F32.inf _, F32.inf _ => F32.nan
  | F32.inf s, F32.zero t => F32.inf (Bool.xor s t)
  | F32.inf s, F32.fin m _ => F32.inf (Bool.xor s (decide (m < 0)))
  | F32.zero _, F32.nan => F32.nan
  | F32.zero s, F32.inf t => F32.zero (Bool.xor s t)
  | F32.zero _, F32.zero _ => F32.nan
  | F32.zero s, F32.fin m _ => F32.zero (Bool.xor s (decide (m < 0)))
  | F32.fin _ _, F32.nan => F32.nan
  | F32.fin m _, F32.inf t => F32.zero (Bool.xor (decide (m < 0)) t)
  | F32.fin m _, F32.zero t => F32.inf (Bool.xor (decide (m < 0)) t)
  | F32.fin m1 e1, F32.fin m2 e2 =>
    roundQ (if m2 < 0 then -m1 else m1) m2 (e1 - e2)

/-- Conversion of an integer to binary32 (rounding to nearest even). -/
def F32.ofInt (z : ℤ) : F32 := if z = 0 then F32.zero false else roundQ z 1 0

/-- Conversion of the `uint32_t` argument `blockSize` to `float32_t`,
as the C casts `(float32_t) blockSize` and the implicit conversion in
`blockSize - 1.0f` perform. -/
def F32.ofNat32 (n : ℕ) : F32 := F32.ofInt (n : ℤ)

/-- Finiteness predicate: true for zeros and finite nonzero values. -/
def F32.isFinite : F32 → Bool
  | F32.nan => false
  | F32.inf _ => false
  | F32.zero _ => true
  | F32.fin _ _ => true

/-- Rational value of a binary32 datum (`none` for NaN and infinities). -/
def F32.val : F32 → Option ℚ
  | F32.nan => none
  | F32.inf _ => none
  | F32.zero _ => some 0
  | F32.fin m e => some ((m : ℚ) * 2 ^ e)

/-- First pass of the Cortex-M4/M7 build: the 4-way unrolled summation
loop (`while (blkCnt > 0u) { in1 = *pInput++; ...; sum += in1; ... }`).
State is (pointer index, accumulator); the counter is the first `ℕ`. -/
def pass1Unroll (mem : ℕ → F32) : ℕ → ℕ → F32 → ℕ × F32
  | p, 0, sum => (p, sum)
  | p, k+1, sum =>
    pass1Unroll mem (p+4) k
      (F32.add (F32.add (F32.add (F32.add sum (mem p)) (mem (p+1))) (mem (p+2))) (mem (p+3)))

/-- Single-element summation loop (`sum += *pInput++`), used for the
remainder of the unrolled build and for the whole Cortex-M0/M3 pass. -/
def pass1Tail (mem : ℕ → F32) : ℕ → ℕ → F32 → ℕ × F32
  | p, 0, sum => (p, sum)
  | p, k+1, sum => pass1Tail mem (p+1) k (F32.add sum (mem p))

/-- Second pass of the Cortex-M4/M7 build: the 4-way unrolled
squared-deviation loop (`fValue = *pInput++ - fMean; fSum += fValue * fValue;`
four times per iteration). -/
def pass2Unroll (mem : ℕ → F32) (fMean : F32) : ℕ → ℕ → F32 → ℕ × F32
  | p, 0, fSum => (p, fSum)
  | p, k+1, fSum =>
    pass2Unroll mem fMean (p+4) k
      (F32.add (F32.add (F32.add (F32.add fSum
        (F32.mul (F32.sub (mem p) fMean) (F32.sub (mem p) fMean)))
        (F32.mul (F32.sub (mem (p+1)) fMean) (F32.sub (mem (p+1)) fMean)))
        (F32.mul (F32.sub (mem (p+2)) fMean) (F32.sub (mem (p+2)) fMean)))
        (F32.mul (F32.sub (mem (p+3)) fMean) (F32.sub (mem (p+3)) fMean)))

/-- Single-element squared-deviation loop
(`fValue = *pInput++ - fMean; fSum += fValue * fValue;`). -/
def pass2Tail (mem : ℕ → F32) (fMean : F32) : ℕ → ℕ → F32 → ℕ × F32
  | p, 0, fSum => (p, fSum)
  | p, k+1, fSum =>
    pass2Tail mem fMean (p+1) k
      (F32.add fSum (F32.mul (F32.sub (mem p) fMean) (F32.sub (mem p) fMean)))

/-- The function `arm_var_f32` in the build configuration of this
repository (Cortex-M4/M7: neither `ARM_MATH_CM0_FAMILY` nor
`ARM_MATH_CM3_FAMILY` defined, so both passes run the 4-way unrolled loop
for `blockSize >> 2` groups followed by the remainder loop for
`blockSize % 4` elements).  `mem` is the contents of memory at `pSrc`;
the returned value is what the kernel stores to `*pResult`. -/
def arm_var_f32 (mem : ℕ → F32) (blockSize : ℕ) : F32 :=
  if blockSize ≤ 1 then F32.zero false
  else
    let s1 := pass1Unroll mem 0 (blockSize >>> 2) (F32.zero false)
    let s2 := pass1Tail mem s1.1 (blockSize % 4) s1.2
    let fMean := F32.div s2.2 (F32.ofNat32 blockSize)
    let t1 := pass2Unroll mem fMean 0 (blockSize >>> 2) (F32.zero false)
    let t2 := pass2Tail mem fMean t1.1 (blockSize % 4) t1.2
    F32.div t2.2 (F32.sub (F32.ofNat32 blockSize) (F32.ofInt 1))

/-- The function `arm_var_f32` in the Cortex-M0/M3 build configuration:
each pass is a single element-at-a-time loop over all `blockSize`
elements. -/
def arm_var_f32_cm0_cm3 (mem : ℕ → F32) (blockSize : ℕ) : F32 :=
  if blockSize ≤ 1 then F32.zero false
  else
    let s := pass1Tail mem 0 blockSize (F32.zero false)
    let fMean := F32.div s.2 (F32.ofNat32 blockSize)
    let t := pass2Tail mem fMean 0 blockSize (F32.zero false)
    F32.div t.2 (F32.sub (F32.ofNat32 blockSize) (F32.ofInt 1))

/-- Trace of the stores that `arm_var_f32` performs through `pResult`:
the early-return path stores `0` once (`*pResult = 0; return;`), the main
path stores the final quotient once (`*pResult = fSum / ...`). -/
def arm_var_f32_resultWrites (mem : ℕ → F32) (blockSize : ℕ) : List F32 :=
  if blockSize ≤ 1 then [F32.zero false]
  else
    let s1 := pass1Unroll mem 0 (blockSize >>> 2) (F32.zero false)
    let s2 := pass1Tail mem s1.1 (blockSize % 4) s1.2
    let fMean := F32.div s2.2 (F32.ofNat32 blockSize)
    let t1 := pass2Unroll mem fMean 0 (blockSize >>> 2) (F32.zero false)
    let t2 := pass2Tail mem fMean t1.1 (blockSize % 4) t1.2
    [F32.div t2.2 (F32.sub (F32.ofNat32 blockSize) (F32.ofInt 1))]

/-- List of the `k` memory cells starting at index `p`, in pointer-walk
order. -/
def walk (mem : ℕ → F32) : ℕ → ℕ → List F32
  | _, 0 => []
  | p, k+1 => mem p :: walk mem (p+1) k

/-- First `n` elements of the input vector, in order. -/
def prefixVec (mem : ℕ → F32) (n : ℕ) : List F32 := walk mem 0 n

/-- Left-to-right binary32 sum of a list, starting from `+0.0f`
(pass 1 of the two-pass method). -/
def sumF32 (xs : List F32) : F32 := xs.foldl F32.add (F32.zero false)

/-- One accumulation step of pass 2:
`fSum + (x - fMean) * (x - fMean)` in binary32. -/
def sqDevStep (fMean acc x : F32) : F32 :=
  F32.add acc (F32.mul (F32.sub x fMean) (F32.sub x fMean))

/-- Left-to-right binary32 sum of squared deviations from `fMean`,
starting from `+0.0f` (pass 2 of the two-pass method). -/
def sqDevSum (fMean : F32) (xs : List F32) : F32 :=
  xs.foldl (sqDevStep fMean) (F32.zero false)

/-- Functional (list-level) form of the kernel: two-pass variance with the
divisor computed as `(float32)blockSize - 1.0f`, exactly as both build
paths of the C code compute it. -/
def varTwoPass (xs : List F32) : F32 :=
  if xs.length ≤ 1 then F32.zero false
  else
    F32.div (sqDevSum (F32.div (sumF32 xs) (F32.ofNat32 xs.length)) xs)
      (F32.sub (F32.ofNat32 xs.length) (F32.ofInt 1))

/-- Variance as claim C1 words it: two-pass, but with the final divisor
being `blockSize - 1` (an integer) converted to float32 — i.e.
`(float32)(blockSize - 1)` — rather than the C code's
`(float32)blockSize - 1.0f`. -/
def varSpecC1 (xs : List F32) : F32 :=
  F32.div (sqDevSum (F32.div (sumF32 xs) (F32.ofNat32 xs.length)) xs)
    (F32.ofNat32 (xs.length - 1))

/-- Rational value that `roundQ num den E` rounds: `(num / den) * 2^E`. -/
def qval (num den E : ℤ) : ℚ := (num : ℚ) / (den : ℚ) * 2 ^ E

/-- Representability of a nonzero rational as a binary32 value. -/
def RepF32 (v : ℚ) : Prop :=
  ∃ z E : ℤ, v = (z : ℚ) * 2 ^ E ∧ z ≠ 0 ∧ |z| < 2 ^ 24 ∧ -149 ≤ E ∧ E ≤ 104

/-- Canonical IEEE encoding of a finite nonzero value: a normal number has
a 24-bit mantissa with its top bit set, a subnormal lives at the minimum
exponent `-149`. -/
def IsCanon (m e : ℤ) : Prop :=
  m ≠ 0 ∧ |m| < 2 ^ 24 ∧ -149 ≤ e ∧ (e = -149 ∨ 2 ^ 23 ≤ |m|)

/-- A binary32 datum holds the rational value `v` (zeros of either sign
hold `0`; NaN and infinities hold no rational value). -/
def Vals (x : F32) (v : ℚ) : Prop :=
  ((∃ s, x = F32.zero s) ∧ v = 0) ∨ (∃ m e : ℤ, x = F32.fin m e ∧ (m : ℚ) * 2 ^ e = v)

/-- The concrete vector `[2, 4, 4, 4, 5, 5, 7, 9]` of the spec's worked
scenario. -/
def input8 : List F32 :=
  [F32.ofInt 2, F32.ofInt 4, F32.ofInt 4, F32.ofInt 4,
   F32.ofInt 5, F32.ofInt 5, F32.ofInt 7, F32.ofInt 9]

/-- Memory holding `input8` starting at index 0. -/
def mem8 (i : ℕ) : F32 := input8.getD i (F32.zero false)

/-- Memory holding `2^25` at index 0 and `+0.0` everywhere else — the
input used to separate the two divisor readings of claim C1 at
`blockSize = 2^24 + 3`. -/
def memC1 (i : ℕ) : F32 := if i = 0 then F32.ofInt 33554432 else F32.zero false

/-- Two-element input vector holding the integers `a` then `b`. -/
def memPair (a b : ℤ) (i : ℕ) : F32 := if i = 0 then F32.ofInt a else F32.ofInt b

/-- Two-element input vector holding `1.0f` then `2^-24` — both exactly
representable, used to separate the computed two-element variance from
the exact formula `(a-b)^2 / 2` of claim C6. -/
def memC6 (i : ℕ) : F32 :=
  if i = 0 then F32.fin 8388608 (-23) else F32.fin 8388608 (-47)

/-! ### Correctness of the integer logarithm and rounding helpers -/

theorem natLog2F_spec (fuel : ℕ) :
    ∀ n, 1 ≤ n → n ≤ fuel → 2 ^ natLog2F fuel n ≤ n ∧ n < 2 ^ (natLog2F fuel n + 1) := by
  induction fuel with
  | zero => intro n h1 h2; exact ((by omega : False)).elim
  | succ f ih =>
    intro n h1 h2
    by_cases hn : n ≤ 1
    · have hn1 : n = 1 := by omega
      subst hn1
      simp [natLog2F]
    · have h1' : 1 ≤ n / 2 := by omega
      have h2' : n / 2 ≤ f := by omega
      obtain ⟨ha, hb⟩ := ih (n / 2) h1' h2'
      have hstep : natLog2F (f + 1) n = natLog2F f (n / 2) + 1 := by
        simp [natLog2F, hn]
      rw [hstep]
      have e1 : (2:ℕ) ^ (natLog2F f (n / 2) + 1) = 2 * 2 ^ natLog2F f (n / 2) := by
        rw [pow_succ]; ring
      have e2 : (2:ℕ) ^ (natLog2F f (n / 2) + 1 + 1) = 2 * 2 ^ (natLog2F f (n / 2) + 1) := by
        rw [pow_succ]; ring
      omega

theorem natLog2_spec (n : ℕ) (h : 1 ≤ n) :
    2 ^ natLog2 n ≤ n ∧ n < 2 ^ (natLog2 n + 1) :=
  natLog2F_spec n n h le_rfl

theorem le_pow2_iff (a b : ℕ) (k : ℤ) (_ha : 1 ≤ a) (hb : 1 ≤ b) :
    le_pow2 a b k = true ↔ (2:ℚ) ^ k ≤ (a : ℚ) / b := by
  have hb0 : (0:ℚ) < (b : ℚ) := by exact_mod_cast hb
  rw [le_div_iff₀ hb0]
  unfold le_pow2
  by_cases hk : 0 ≤ k
  · rw [if_pos hk]
    have hzk : (2:ℚ) ^ k = (2:ℚ) ^ k.toNat := by
      rw [← zpow_natCast]
      congr 1
      omega
    rw [hzk]
    rw [decide_eq_true_iff]
    constructor
    · intro h
      have h' : ((b * 2 ^ k.toNat : ℕ) : ℚ) ≤ (a : ℚ) := by exact_mod_cast h
      calc (2:ℚ) ^ k.toNat * b = ((b * 2 ^ k.toNat : ℕ) : ℚ) := by push_cast; ring
        _ ≤ (a : ℚ) := h'
    · intro h
      have h' : ((b * 2 ^ k.toNat : ℕ) : ℚ) ≤ (a : ℚ) := by
        calc ((b * 2 ^ k.toNat : ℕ) : ℚ) = (2:ℚ) ^ k.toNat * b := by push_cast; ring
          _ ≤ (a : ℚ) := h
      exact_mod_cast h'
  · rw [if_neg hk]
    rw [decide_eq_true_iff]
    have hk' : 0 ≤ -k := by omega
    have hzk : (2:ℚ) ^ (-k) = (2:ℚ) ^ (-k).toNat := by
      rw [← zpow_natCast]
      congr 1
      omega
    have hmul : (2:ℚ) ^ k * (2:ℚ) ^ (-k) = 1 := by
      rw [← zpow_add₀ (by norm_num : (2:ℚ) ≠ 0)]
      norm_num
    have key : (2:ℚ) ^ k * b ≤ a ↔ (b : ℚ) ≤ (a : ℚ) * (2:ℚ) ^ (-k) := by
      constructor
      · intro h
        calc (b : ℚ) = ((2:ℚ) ^ k * b) * (2:ℚ) ^ (-k) := by
              rw [mul_comm ((2:ℚ) ^ k) (b : ℚ), mul_assoc, hmul, mul_one]
          _ ≤ (a : ℚ) * (2:ℚ) ^ (-k) := by
              apply mul_le_mul_of_nonneg_right h
              positivity
      · intro h
        calc (2:ℚ) ^ k * b ≤ (2:ℚ) ^ k * ((a : ℚ) * (2:ℚ) ^ (-k)) := by
              apply mul_le_mul_of_nonneg_left h
              positivity
          _ = (a : ℚ) * ((2:ℚ) ^ k * (2:ℚ) ^ (-k)) := by ring
          _ = (a : ℚ) := by rw [hmul, mul_one]
    rw [key]
    constructor
    · intro h
      have h' : ((b : ℕ) : ℚ) ≤ ((a * 2 ^ (-k).toNat : ℕ) : ℚ) := by exact_mod_cast h
      rw [hzk]
      calc (b : ℚ) ≤ ((a * 2 ^ (-k).toNat : ℕ) : ℚ) := h'
        _ = (a : ℚ) * (2:ℚ) ^ (-k).toNat := by push_cast; ring
    · intro h
      rw [hzk] at h
      have h' : ((b : ℕ) : ℚ) ≤ ((a * 2 ^ (-k).toNat : ℕ) : ℚ) := by
        push_cast
        linarith
      exact_mod_cast h'

theorem qfloorLog2_spec (a b : ℕ) (ha : 1 ≤ a) (hb : 1 ≤ b) :
    (2:ℚ) ^ qfloorLog2 a b ≤ (a : ℚ) / b ∧ (a : ℚ) / b < 2 ^ (qfloorLog2 a b + 1) := by
  have hb0 : (0:ℚ) < (b : ℚ) := by exact_mod_cast hb
  obtain ⟨ha1, ha2⟩ := natLog2_spec a ha
  obtain ⟨hb1, hb2⟩ := natLog2_spec b hb
  have hQa1 : (2:ℚ) ^ (natLog2 a : ℤ) ≤ (a : ℚ) := by
    rw [zpow_natCast]; exact_mod_cast ha1
  have hQa2 : (a : ℚ) < (2:ℚ) ^ ((natLog2 a : ℤ) + 1) := by
    have hcast : ((natLog2 a : ℤ) + 1) = ((natLog2 a + 1 : ℕ) : ℤ) := by push_cast; ring
    rw [hcast, zpow_natCast]
    exact_mod_cast ha2
  have hQb1 : (2:ℚ) ^ (natLog2 b : ℤ) ≤ (b : ℚ) := by
    rw [zpow_natCast]; exact_mod_cast hb1
  have hQb2 : (b : ℚ) < (2:ℚ) ^ ((natLog2 b : ℤ) + 1) := by
    have hcast : ((natLog2 b : ℤ) + 1) = ((natLog2 b + 1 : ℕ) : ℤ) := by push_cast; ring
    rw [hcast, zpow_natCast]
    exact_mod_cast hb2
  have hupper : (a : ℚ) / b < 2 ^ (((natLog2 a : ℤ) - natLog2 b) + 1) := by
    rw [div_lt_iff₀ hb0]
    calc (a : ℚ) < (2:ℚ) ^ ((natLog2 a : ℤ) + 1) := hQa2
      _ = (2:ℚ) ^ (((natLog2 a : ℤ) - natLog2 b) + 1) * (2:ℚ) ^ (natLog2 b : ℤ) := by
          rw [← zpow_add₀ (by norm_num : (2:ℚ) ≠ 0)]; congr 1; ring
      _ ≤ (2:ℚ) ^ (((natLog2 a : ℤ) - natLog2 b) + 1) * b := by
          apply mul_le_mul_of_nonneg_left hQb1
          positivity
  have hlower : (2:ℚ) ^ (((natLog2 a : ℤ) - natLog2 b) - 1) < (a : ℚ) / b := by
    rw [lt_div_iff₀ hb0]
    calc (2:ℚ) ^ (((natLog2 a : ℤ) - natLog2 b) - 1) * b
        < (2:ℚ) ^ (((natLog2 a : ℤ) - natLog2 b) - 1) * (2:ℚ) ^ ((natLog2 b : ℤ) + 1) := by
          apply mul_lt_mul_of_pos_left hQb2
          positivity
      _ = (2:ℚ) ^ (natLog2 a : ℤ) := by
          rw [← zpow_add₀ (by norm_num : (2:ℚ) ≠ 0)]; congr 1; ring
      _ ≤ (a : ℚ) := hQa1
  unfold qfloorLog2
  by_cases hle : le_pow2 a b ((natLog2 a : ℤ) - natLog2 b) = true
  · rw [if_pos hle]
    exact ⟨(le_pow2_iff a b _ ha hb).mp hle, hupper⟩
  · rw [if_neg hle]
    constructor
    · exact le_of_lt hlower
    · have : ¬ ((2:ℚ) ^ ((natLog2 a : ℤ) - natLog2 b) ≤ (a : ℚ) / b) := by
        intro hcon
        exact hle ((le_pow2_iff a b _ ha hb).mpr hcon)
      have := lt_of_not_le this
      calc (a : ℚ) / b < (2:ℚ) ^ ((natLog2 a : ℤ) - natLog2 b) := this
        _ = (2:ℚ) ^ ((((natLog2 a : ℤ) - natLog2 b) - 1) + 1) := by congr 1; ring

theorem two_zpow_pos (m : ℤ) : (0:ℚ) < 2 ^ m := zpow_pos (by norm_num) m

theorem two_zpow_mono {m n : ℤ} (h : m ≤ n) : (2:ℚ) ^ m ≤ 2 ^ n :=
  zpow_le_zpow_right₀ (by norm_num) h

theorem two_zpow_lt {m n : ℤ} (h : (2:ℚ) ^ m < 2 ^ n) : m < n := by
  by_contra hc
  exact absurd (two_zpow_mono (by omega : n ≤ m)) (not_le.mpr h)

theorem two_zpow_add (m n : ℤ) : (2:ℚ) ^ (m + n) = 2 ^ m * 2 ^ n :=
  zpow_add₀ (by norm_num) m n

theorem two_zpow_toNat {m : ℤ} (h : 0 ≤ m) : (2:ℚ) ^ m.toNat = (2:ℚ) ^ m := by
  rw [← zpow_natCast]
  congr 1
  omega

theorem rneND_bounds (N D : ℕ) : N / D ≤ rneND N D ∧ rneND N D ≤ N / D + 1 := by
  unfold rneND
  split_ifs <;> omega

theorem rneND_exact (N D : ℕ) (hD : 0 < D) (h : N % D = 0) : rneND N D = N / D := by
  unfold rneND
  rw [h]
  simp [hD]

theorem natToQ_div_decomp (N D : ℕ) (hD : 0 < D) :
    (N : ℚ) / D = ((N / D : ℕ) : ℚ) + ((N % D : ℕ) : ℚ) / D := by
  have hD0 : (0:ℚ) < (D : ℚ) := by exact_mod_cast hD
  have hq : ((D : ℚ)) * ((N / D : ℕ) : ℚ) + ((N % D : ℕ) : ℚ) = (N : ℚ) := by
    exact_mod_cast Nat.div_add_mod N D
  field_simp
  linarith

theorem rneND_half (N D : ℕ) (hD : 0 < D) :
    |((rneND N D : ℕ) : ℚ) - (N : ℚ) / D| ≤ 1 / 2 := by
  have hD0 : (0:ℚ) < (D : ℚ) := by exact_mod_cast hD
  have hdec := natToQ_div_decomp N D hD
  have hrlt : ((N % D : ℕ) : ℚ) / D < 1 := by
    rw [div_lt_one hD0]
    exact_mod_cast Nat.mod_lt N hD
  have hrnn : (0:ℚ) ≤ ((N % D : ℕ) : ℚ) / D := by positivity
  unfold rneND
  split_ifs with h1 h2 h3
  · have hlt : ((N % D : ℕ) : ℚ) / D < 1 / 2 := by
      rw [div_lt_div_iff₀ hD0 (by norm_num : (0:ℚ) < 2)]
      exact_mod_cast (by omega : (N % D) * 2 < 1 * D)
    have hdiff : ((N / D : ℕ) : ℚ) - (N : ℚ) / D = -(((N % D : ℕ) : ℚ) / D) := by
      rw [hdec]; ring
    rw [hdiff, abs_neg, abs_of_nonneg hrnn]
    linarith
  · have hgt : (1:ℚ) / 2 < ((N % D : ℕ) : ℚ) / D := by
      rw [div_lt_div_iff₀ (by norm_num : (0:ℚ) < 2) hD0]
      exact_mod_cast (by omega : 1 * D < (N % D) * 2)
    have hdiff : ((N / D + 1 : ℕ) : ℚ) - (N : ℚ) / D = 1 - ((N % D : ℕ) : ℚ) / D := by
      push_cast
      rw [hdec]; ring
    rw [hdiff, abs_of_nonneg (by linarith)]
    linarith
  · have heq : ((N % D : ℕ) : ℚ) / D = 1 / 2 := by
      rw [div_eq_div_iff (ne_of_gt hD0) (by norm_num : (2:ℚ) ≠ 0)]
      exact_mod_cast (by omega : (N % D) * 2 = 1 * D)
    have hdiff : ((N / D : ℕ) : ℚ) - (N : ℚ) / D = -(((N % D : ℕ) : ℚ) / D) := by
      rw [hdec]; ring
    rw [hdiff, abs_neg, abs_of_nonneg hrnn, heq]
  · have heq : ((N % D : ℕ) : ℚ) / D = 1 / 2 := by
      rw [div_eq_div_iff (ne_of_gt hD0) (by norm_num : (2:ℚ) ≠ 0)]
      exact_mod_cast (by omega : (N % D) * 2 = 1 * D)
    have hdiff : ((N / D + 1 : ℕ) : ℚ) - (N : ℚ) / D = 1 - ((N % D : ℕ) : ℚ) / D := by
      push_cast
      rw [hdec]; ring
    rw [hdiff, heq]
    rw [abs_of_nonneg (by norm_num : (0:ℚ) ≤ 1 - 1/2)]
    norm_num

theorem qval_abs (z d E : ℤ) :
    |qval z d E| = ((z.natAbs : ℚ) / (d.natAbs : ℚ)) * 2 ^ E := by
  unfold qval
  rw [abs_mul, abs_div, abs_of_pos (two_zpow_pos E)]
  congr 2
  · simp [Int.cast_natAbs, Int.cast_abs]
  · simp [Int.cast_natAbs, Int.cast_abs]

theorem qval_ne_zero (z d E : ℤ) (hz : z ≠ 0) (hd : 0 < d) : qval z d E ≠ 0 := by
  unfold qval
  have h1 : ((z : ℚ)) ≠ 0 := by exact_mod_cast hz
  have h2 : ((d : ℚ)) ≠ 0 := by
    have : d ≠ 0 := by omega
    exact_mod_cast this
  have h3 : (2:ℚ) ^ E ≠ 0 := ne_of_gt (two_zpow_pos E)
  positivity

theorem qval_neg_iff (z d E : ℤ) (hd : 0 < d) : qval z d E < 0 ↔ z < 0 := by
  unfold qval
  have h2 : (0:ℚ) < (d : ℚ) := by exact_mod_cast hd
  have h3 : (0:ℚ) < (2:ℚ) ^ E := two_zpow_pos E
  constructor
  · intro h
    by_contra hc
    have hz' : (0:ℚ) ≤ (z : ℚ) := by exact_mod_cast (by omega : 0 ≤ z)
    have : (0:ℚ) ≤ (z : ℚ) / d * 2 ^ E := by positivity
    linarith
  · intro h
    have hz' : ((z : ℚ)) < 0 := by exact_mod_cast h
    have hdiv : (z : ℚ) / d < 0 := div_neg_of_neg_of_pos hz' h2
    exact mul_neg_of_neg_of_pos hdiv h3

theorem roundQ_setup (a b : ℕ) (E : ℤ) (ha : 1 ≤ a) (hb : 1 ≤ b) :
    0 < denScaled b E (etF32 a b E) ∧
    ((numScaled a E (etF32 a b E) : ℚ) / (denScaled b E (etF32 a b E) : ℚ)
      = ((a : ℚ) / b) * 2 ^ (E - etF32 a b E)) ∧
    ((a : ℚ) / b) * 2 ^ (E - etF32 a b E) < 2 ^ (24 : ℤ) ∧
    (-149 ≤ qfloorLog2 a b + E - 23 →
      (2:ℚ) ^ (23 : ℤ) ≤ ((a : ℚ) / b) * 2 ^ (E - etF32 a b E)) := by
  have hb0 : (0:ℚ) < (b : ℚ) := by exact_mod_cast hb
  obtain ⟨hq1, hq2⟩ := qfloorLog2_spec a b ha hb
  have hetmax : qfloorLog2 a b + E - 23 ≤ etF32 a b E := le_max_left _ _
  refine ⟨?_, ?_, ?_, ?_⟩
  · unfold denScaled
    split_ifs
    · exact hb
    · exact Nat.mul_pos hb (pow_pos (by norm_num) _)
  · unfold numScaled denScaled
    by_cases h : 0 ≤ E - etF32 a b E
    · rw [if_pos h, if_pos h]
      push_cast
      rw [two_zpow_toNat h]
      ring
    · rw [if_neg h, if_neg h]
      push_cast
      rw [two_zpow_toNat (by omega : 0 ≤ etF32 a b E - E)]
      calc (a:ℚ) / ((b:ℚ) * (2:ℚ) ^ (etF32 a b E - E))
          = ((a:ℚ) / b) / (2:ℚ) ^ (etF32 a b E - E) := by rw [div_div]
        _ = ((a:ℚ) / b) * ((2:ℚ) ^ (etF32 a b E - E))⁻¹ := by rw [div_eq_mul_inv]
        _ = ((a:ℚ) / b) * (2:ℚ) ^ (E - etF32 a b E) := by
            rw [← zpow_neg]
            congr 1
            ring
  · calc ((a : ℚ) / b) * 2 ^ (E - etF32 a b E)
        < (2:ℚ) ^ (qfloorLog2 a b + 1) * 2 ^ (E - etF32 a b E) := by
          apply mul_lt_mul_of_pos_right hq2 (two_zpow_pos _)
      _ = (2:ℚ) ^ (qfloorLog2 a b + 1 + (E - etF32 a b E)) := (two_zpow_add _ _).symm
      _ ≤ (2:ℚ) ^ (24 : ℤ) := two_zpow_mono (by omega)
  · intro hge
    have het : etF32 a b E = qfloorLog2 a b + E - 23 := max_eq_left hge
    calc (2:ℚ) ^ (23 : ℤ) = (2:ℚ) ^ (qfloorLog2 a b + (E - etF32 a b E)) := by
          congr 1
          omega
      _ = (2:ℚ) ^ qfloorLog2 a b * 2 ^ (E - etF32 a b E) := two_zpow_add _ _
      _ ≤ ((a : ℚ) / b) * 2 ^ (E - etF32 a b E) := by
          apply mul_le_mul_of_nonneg_right hq1 (two_zpow_pos _).le

theorem roundFin_fin (sg : Bool) (n0 : ℕ) (et : ℤ) (h0 : n0 ≠ 0) (h24 : n0 ≠ 2 ^ 24)
    (hov : ¬ 105 ≤ et) :
    roundFin sg n0 et = F32.fin (if sg then -(n0 : ℤ) else (n0 : ℤ)) et := by
  unfold roundFin
  rw [if_neg h0, if_neg h24, if_neg hov]

theorem roundQ_exact (z d E : ℤ) (hz : z ≠ 0) (hd : 0 < d) (hrep : RepF32 (qval z d E)) :
    ∃ m e : ℤ, roundQ z d E = F32.fin m e ∧ (m : ℚ) * 2 ^ e = qval z d E ∧ IsCanon m e := by
  have ha : 0 < z.natAbs := Int.natAbs_pos.mpr hz
  have hb : 0 < d.natAbs := Int.natAbs_pos.mpr (by omega)
  have hb0 : (0:ℚ) < (d.natAbs : ℚ) := by exact_mod_cast hb
  have ha0 : (0:ℚ) < (z.natAbs : ℚ) := by exact_mod_cast ha
  obtain ⟨hden, hratio, hxlt, hxge⟩ := roundQ_setup z.natAbs d.natAbs E ha hb
  obtain ⟨hq1, _⟩ := qfloorLog2_spec z.natAbs d.natAbs ha hb
  obtain ⟨z', E', hv, hz', hz24, hE1, hE2⟩ := hrep
  have habs : |qval z d E| = ((z.natAbs : ℚ) / (d.natAbs : ℚ)) * 2 ^ E := qval_abs z d E
  have hvne : qval z d E ≠ 0 := qval_ne_zero z d E hz hd
  have hz'0 : z'.natAbs ≠ 0 := Int.natAbs_ne_zero.mpr hz'
  have hz'abs : (z'.natAbs : ℚ) = |(z' : ℚ)| := by
    rw [Int.cast_natAbs, Int.cast_abs]
  have habs' : |qval z d E| = (z'.natAbs : ℚ) * 2 ^ E' := by
    rw [hv, abs_mul, abs_of_pos (two_zpow_pos E'), ← hz'abs]
  have hlow : (2:ℚ) ^ (qfloorLog2 z.natAbs d.natAbs + E) ≤ |qval z d E| := by
    rw [habs, two_zpow_add]
    exact mul_le_mul_of_nonneg_right hq1 (two_zpow_pos E).le
  have hz24n : z'.natAbs < 2 ^ 24 := by
    have h1 : (z'.natAbs : ℤ) < 2 ^ 24 := by
      rw [← Int.abs_eq_natAbs]
      exact hz24
    exact_mod_cast h1
  have hup : |qval z d E| < (2:ℚ) ^ ((24 : ℤ) + E') := by
    rw [habs']
    have hz24' : (z'.natAbs : ℚ) < ((2 ^ 24 : ℕ) : ℚ) := by exact_mod_cast hz24n
    have hpow24 : ((2 ^ 24 : ℕ) : ℚ) = (2:ℚ) ^ ((24:ℕ) : ℤ) := by
      rw [zpow_natCast]
      push_cast
      ring
    calc (z'.natAbs : ℚ) * 2 ^ E' < ((2 ^ 24 : ℕ) : ℚ) * 2 ^ E' := by
          exact mul_lt_mul_of_pos_right hz24' (two_zpow_pos E')
      _ = (2:ℚ) ^ ((24:ℤ) + E') := by
          rw [hpow24, two_zpow_add]
          norm_num
  have hE'ge : qfloorLog2 z.natAbs d.natAbs + E - 23 ≤ E' := by
    have h := two_zpow_lt (lt_of_le_of_lt hlow hup)
    omega
  have hetE' : etF32 z.natAbs d.natAbs E ≤ E' := by
    unfold etF32
    exact max_le (by omega) hE1
  have hetup : etF32 z.natAbs d.natAbs E ≤ 104 := by omega
  have hnxq : ((z'.natAbs * 2 ^ (E' - etF32 z.natAbs d.natAbs E).toNat : ℕ) : ℚ)
      = ((z.natAbs : ℚ) / (d.natAbs : ℚ)) * 2 ^ (E - etF32 z.natAbs d.natAbs E) := by
    have h1 : ((z.natAbs : ℚ) / (d.natAbs : ℚ)) * 2 ^ (E - etF32 z.natAbs d.natAbs E)
        = |qval z d E| * 2 ^ (-(etF32 z.natAbs d.natAbs E)) := by
      rw [habs, show E - etF32 z.natAbs d.natAbs E
            = E + -(etF32 z.natAbs d.natAbs E) by ring, two_zpow_add]
      ring
    rw [h1, habs']
    push_cast
    rw [two_zpow_toNat (by omega : (0:ℤ) ≤ E' - etF32 z.natAbs d.natAbs E)]
    rw [show E' - etF32 z.natAbs d.natAbs E
          = E' + -(etF32 z.natAbs d.natAbs E) by ring, two_zpow_add]
    ring
  have hdenQ : (0:ℚ) < (denScaled d.natAbs E (etF32 z.natAbs d.natAbs E) : ℚ) := by
    exact_mod_cast hden
  have hx := hratio.trans hnxq.symm
  rw [div_eq_iff (ne_of_gt hdenQ)] at hx
  have hNDnat : numScaled z.natAbs E (etF32 z.natAbs d.natAbs E)
      = (z'.natAbs * 2 ^ (E' - etF32 z.natAbs d.natAbs E).toNat)
        * denScaled d.natAbs E (etF32 z.natAbs d.natAbs E) := by
    exact_mod_cast hx
  have hmod : numScaled z.natAbs E (etF32 z.natAbs d.natAbs E)
      % denScaled d.natAbs E (etF32 z.natAbs d.natAbs E) = 0 := by
    rw [hNDnat]
    exact Nat.mul_mod_left _ _
  have hdiv : numScaled z.natAbs E (etF32 z.natAbs d.natAbs E)
      / denScaled d.natAbs E (etF32 z.natAbs d.natAbs E)
      = z'.natAbs * 2 ^ (E' - etF32 z.natAbs d.natAbs E).toNat := by
    rw [hNDnat]
    exact Nat.mul_div_cancel _ hden
  have hn0 : rneND (numScaled z.natAbs E (etF32 z.natAbs d.natAbs E))
      (denScaled d.natAbs E (etF32 z.natAbs d.natAbs E))
      = z'.natAbs * 2 ^ (E' - etF32 z.natAbs d.natAbs E).toNat := by
    rw [rneND_exact _ _ hden hmod, hdiv]
  have hnx24 : z'.natAbs * 2 ^ (E' - etF32 z.natAbs d.natAbs E).toNat < 2 ^ 24 := by
    have h1 : ((z'.natAbs * 2 ^ (E' - etF32 z.natAbs d.natAbs E).toNat : ℕ) : ℚ)
        < ((2 ^ 24 : ℕ) : ℚ) := by
      rw [hnxq]
      calc ((z.natAbs : ℚ) / (d.natAbs : ℚ)) * 2 ^ (E - etF32 z.natAbs d.natAbs E)
          < 2 ^ (24 : ℤ) := hxlt
        _ = ((2 ^ 24 : ℕ) : ℚ) := by
            push_cast
            norm_num
    exact_mod_cast h1
  have hnx0 : z'.natAbs * 2 ^ (E' - etF32 z.natAbs d.natAbs E).toNat ≠ 0 := by
    have h2 : 0 < 2 ^ (E' - etF32 z.natAbs d.natAbs E).toNat := pow_pos (by norm_num) _
    have h3 : 0 < z'.natAbs := by omega
    have := Nat.mul_pos h3 h2
    omega
  have hov : ¬ (105 ≤ etF32 z.natAbs d.natAbs E) := by omega
  have hxet : ((z'.natAbs * 2 ^ (E' - etF32 z.natAbs d.natAbs E).toNat : ℕ) : ℚ)
      * 2 ^ etF32 z.natAbs d.natAbs E = |qval z d E| := by
    have hsplit : (2:ℚ) ^ (E - etF32 z.natAbs d.natAbs E) * 2 ^ etF32 z.natAbs d.natAbs E
        = 2 ^ E := by
      rw [← two_zpow_add]
      congr 1
      ring
    calc ((z'.natAbs * 2 ^ (E' - etF32 z.natAbs d.natAbs E).toNat : ℕ) : ℚ)
          * 2 ^ etF32 z.natAbs d.natAbs E
        = ((z.natAbs : ℚ) / (d.natAbs : ℚ))
            * ((2:ℚ) ^ (E - etF32 z.natAbs d.natAbs E) * 2 ^ etF32 z.natAbs d.natAbs E) := by
          rw [hnxq]
          ring
      _ = ((z.natAbs : ℚ) / (d.natAbs : ℚ)) * 2 ^ E := by rw [hsplit]
      _ = |qval z d E| := habs.symm
  refine ⟨if z < 0 then -((z'.natAbs * 2 ^ (E' - etF32 z.natAbs d.natAbs E).toNat : ℕ) : ℤ)
      else ((z'.natAbs * 2 ^ (E' - etF32 z.natAbs d.natAbs E).toNat : ℕ) : ℤ),
    etF32 z.natAbs d.natAbs E, ?_, ?_, ?_⟩
  · unfold roundQ
    rw [hn0, roundFin_fin _ _ _ hnx0 (by omega) hov]
    by_cases hzneg : z < 0
    · simp [hzneg]
    · simp [hzneg]
  · by_cases hzneg : z < 0
    · rw [if_pos hzneg]
      have hvneg : qval z d E < 0 := (qval_neg_iff z d E hd).mpr hzneg
      calc ((-(((z'.natAbs * 2 ^ (E' - etF32 z.natAbs d.natAbs E).toNat : ℕ) : ℤ)) : ℚ))
            * 2 ^ etF32 z.natAbs d.natAbs E
          = -((((z'.natAbs * 2 ^ (E' - etF32 z.natAbs d.natAbs E).toNat : ℕ) : ℚ))
              * 2 ^ etF32 z.natAbs d.natAbs E) := by
            push_cast
            rw [hz'abs]
            ring
        _ = -|qval z d E| := by rw [hxet]
        _ = qval z d E := by
            rw [abs_of_neg hvneg]
            ring
    · rw [if_neg hzneg]
      have hvpos : 0 < qval z d E := by
        rcases lt_trichotomy (qval z d E) 0 with h | h | h
        · exact absurd ((qval_neg_iff z d E hd).mp h) hzneg
        · exact absurd h hvne
        · exact h
      have hcast : ((((z'.natAbs * 2 ^ (E' - etF32 z.natAbs d.natAbs E).toNat : ℕ) : ℤ)) : ℚ)
          = (((z'.natAbs * 2 ^ (E' - etF32 z.natAbs d.natAbs E).toNat : ℕ)) : ℚ) := by
        push_cast
        rw [hz'abs]
      rw [hcast, hxet, abs_of_pos hvpos]
  · have hnz : ((z'.natAbs * 2 ^ (E' - etF32 z.natAbs d.natAbs E).toNat : ℕ) : ℤ) ≠ 0 := by
      exact_mod_cast hnx0
    have hnn : (0:ℤ) ≤ ((z'.natAbs * 2 ^ (E' - etF32 z.natAbs d.natAbs E).toNat : ℕ) : ℤ) :=
      Int.natCast_nonneg _
    have habsm : |if z < 0 then -((z'.natAbs * 2 ^ (E' - etF32 z.natAbs d.natAbs E).toNat : ℕ) : ℤ)
        else ((z'.natAbs * 2 ^ (E' - etF32 z.natAbs d.natAbs E).toNat : ℕ) : ℤ)|
        = ((z'.natAbs * 2 ^ (E' - etF32 z.natAbs d.natAbs E).toNat : ℕ) : ℤ) := by
      split_ifs
      · rw [abs_neg, abs_of_nonneg hnn]
      · rw [abs_of_nonneg hnn]
    refine ⟨?_, ?_, ?_, ?_⟩
    · split_ifs <;> omega
    · rw [habsm]
      exact_mod_cast hnx24
    · unfold etF32
      exact le_max_right _ _
    · by_cases hcase : -149 ≤ qfloorLog2 z.natAbs d.natAbs + E - 23
      · right
        rw [habsm]
        have h23c : (2:ℚ) ^ (23:ℤ) = ((2 ^ 23 : ℕ) : ℚ) := by norm_num
        have hx23 := hxge hcase
        rw [← hnxq, h23c] at hx23
        have h23n : (2 ^ 23 : ℕ) ≤ z'.natAbs * 2 ^ (E' - etF32 z.natAbs d.natAbs E).toNat := by
          exact_mod_cast hx23
        exact_mod_cast h23n
      · left
        unfold etF32
        exact max_eq_right (by omega)

theorem two_zpow_strict {m n : ℤ} (h : m < n) : (2:ℚ) ^ m < 2 ^ n := by
  have h2 : (2:ℚ) ^ (1:ℤ) ≤ 2 ^ (n - m) := two_zpow_mono (by omega)
  have h1 : (1:ℚ) < 2 ^ (n - m) := lt_of_lt_of_le (by norm_num) h2
  have h3 : (2:ℚ) ^ m < 2 ^ m * 2 ^ (n - m) := by
    nlinarith [two_zpow_pos m]
  calc (2:ℚ) ^ m < 2 ^ m * 2 ^ (n - m) := h3
    _ = 2 ^ n := by
        rw [← two_zpow_add]
        congr 1
        ring

theorem roundFin_carry (sg : Bool) (et : ℤ) (h : ¬ 105 ≤ et + 1) :
    roundFin sg (2 ^ 24) et = F32.fin (if sg then -(2 ^ 23 : ℤ) else 2 ^ 23) (et + 1) := by
  unfold roundFin
  rw [if_neg (by norm_num), if_pos rfl, if_neg h]

theorem roundQ_near_pos (z E : ℤ) (hz : 0 < z)
    (h1 : (1:ℚ) / 2 ≤ qval z 1 E) (h2 : qval z 1 E ≤ 2 ^ (40:ℤ)) :
    ∃ m e : ℤ, roundQ z 1 E = F32.fin m e ∧ 0 < m ∧
      |(m : ℚ) * 2 ^ e - qval z 1 E| ≤ qval z 1 E * 2 ^ (-24 : ℤ) := by
  have ha : 0 < z.natAbs := Int.natAbs_pos.mpr (by omega)
  have hvpos : 0 < qval z 1 E := lt_of_lt_of_le (by norm_num) h1
  have habs : qval z 1 E = ((z.natAbs : ℚ) / ((1:ℕ) : ℚ)) * 2 ^ E := by
    rw [← abs_of_pos hvpos, qval_abs]
    norm_num
  obtain ⟨hden, hratio, hxlt, hxge⟩ := roundQ_setup z.natAbs 1 E ha (by norm_num)
  obtain ⟨hq1, hq2⟩ := qfloorLog2_spec z.natAbs 1 ha (by norm_num)
  have hLE1 : -1 ≤ qfloorLog2 z.natAbs 1 + E := by
    have hv_up : qval z 1 E < 2 ^ (qfloorLog2 z.natAbs 1 + 1 + E) := by
      rw [habs, two_zpow_add]
      exact mul_lt_mul_of_pos_right hq2 (two_zpow_pos E)
    have hhalf : (1:ℚ) / 2 = 2 ^ (-1 : ℤ) := by norm_num
    have := two_zpow_lt (lt_of_le_of_lt (hhalf ▸ h1) hv_up)
    omega
  have hv_low : (2:ℚ) ^ (qfloorLog2 z.natAbs 1 + E) ≤ qval z 1 E := by
    rw [habs, two_zpow_add]
    exact mul_le_mul_of_nonneg_right hq1 (two_zpow_pos E).le
  have hLE2 : qfloorLog2 z.natAbs 1 + E ≤ 40 := by
    by_contra hc
    have h41 : (2:ℚ) ^ (41:ℤ) ≤ 2 ^ (qfloorLog2 z.natAbs 1 + E) := two_zpow_mono (by omega)
    have h40 : (2:ℚ) ^ (40:ℤ) < 2 ^ (41:ℤ) := two_zpow_strict (by omega)
    linarith
  have het : etF32 z.natAbs 1 E = qfloorLog2 z.natAbs 1 + E - 23 := by
    unfold etF32
    exact max_eq_left (by omega)
  have hxge' : (2:ℚ) ^ (23:ℤ)
      ≤ ((z.natAbs : ℚ) / ((1:ℕ) : ℚ)) * 2 ^ (E - etF32 z.natAbs 1 E) := hxge (by omega)
  have h23q : (2:ℚ) ^ (23:ℤ) = ((8388608 : ℕ) : ℚ) := by norm_num
  have herr := rneND_half (numScaled z.natAbs E (etF32 z.natAbs 1 E))
    (denScaled 1 E (etF32 z.natAbs 1 E)) hden
  rw [hratio] at herr
  obtain ⟨herr1, herr2⟩ := abs_le.mp herr
  have hn0pos : rneND (numScaled z.natAbs E (etF32 z.natAbs 1 E))
      (denScaled 1 E (etF32 z.natAbs 1 E)) ≠ 0 := by
    intro h0
    rw [h0] at herr1
    rw [h23q] at hxge'
    push_cast at herr1 hxge'
    linarith
  have hn0le : rneND (numScaled z.natAbs E (etF32 z.natAbs 1 E))
      (denScaled 1 E (etF32 z.natAbs 1 E)) ≤ 2 ^ 24 := by
    have hup : ((rneND (numScaled z.natAbs E (etF32 z.natAbs 1 E))
        (denScaled 1 E (etF32 z.natAbs 1 E)) : ℕ) : ℚ) < ((2 ^ 24 + 1 : ℕ) : ℚ) := by
      have h24q : (2:ℚ) ^ (24:ℤ) = ((2 ^ 24 : ℕ) : ℚ) := by norm_num
      rw [h24q] at hxlt
      push_cast
      push_cast at herr2 hxlt
      linarith
    have := (Nat.cast_lt (α := ℚ)).mp hup
    omega
  have hxv : ((z.natAbs : ℚ) / ((1:ℕ) : ℚ)) * 2 ^ (E - etF32 z.natAbs 1 E)
      * 2 ^ etF32 z.natAbs 1 E = qval z 1 E := by
    rw [habs]
    have hsplit : (2:ℚ) ^ (E - etF32 z.natAbs 1 E) * 2 ^ etF32 z.natAbs 1 E = 2 ^ E := by
      rw [← two_zpow_add]
      congr 1
      ring
    calc ((z.natAbs : ℚ) / ((1:ℕ) : ℚ)) * 2 ^ (E - etF32 z.natAbs 1 E) * 2 ^ etF32 z.natAbs 1 E
        = ((z.natAbs : ℚ) / ((1:ℕ) : ℚ))
          * ((2:ℚ) ^ (E - etF32 z.natAbs 1 E) * 2 ^ etF32 z.natAbs 1 E) := by ring
      _ = ((z.natAbs : ℚ) / ((1:ℕ) : ℚ)) * 2 ^ E := by rw [hsplit]
  have hkey : |((rneND (numScaled z.natAbs E (etF32 z.natAbs 1 E))
      (denScaled 1 E (etF32 z.natAbs 1 E)) : ℕ) : ℚ) * 2 ^ etF32 z.natAbs 1 E - qval z 1 E|
      ≤ qval z 1 E * 2 ^ (-24 : ℤ) := by
    have hdiff : ((rneND (numScaled z.natAbs E (etF32 z.natAbs 1 E))
        (denScaled 1 E (etF32 z.natAbs 1 E)) : ℕ) : ℚ) * 2 ^ etF32 z.natAbs 1 E - qval z 1 E
        = (((rneND (numScaled z.natAbs E (etF32 z.natAbs 1 E))
            (denScaled 1 E (etF32 z.natAbs 1 E)) : ℕ) : ℚ)
           - ((z.natAbs : ℚ) / ((1:ℕ) : ℚ)) * 2 ^ (E - etF32 z.natAbs 1 E))
          * 2 ^ etF32 z.natAbs 1 E := by
      rw [sub_mul, hxv]
    rw [hdiff, abs_mul, abs_of_pos (two_zpow_pos _)]
    calc |((rneND (numScaled z.natAbs E (etF32 z.natAbs 1 E))
            (denScaled 1 E (etF32 z.natAbs 1 E)) : ℕ) : ℚ)
           - ((z.natAbs : ℚ) / ((1:ℕ) : ℚ)) * 2 ^ (E - etF32 z.natAbs 1 E)|
          * 2 ^ etF32 z.natAbs 1 E
        ≤ (1 / 2) * 2 ^ etF32 z.natAbs 1 E := by
          exact mul_le_mul_of_nonneg_right herr (two_zpow_pos _).le
      _ = 2 ^ (etF32 z.natAbs 1 E - 1) := by
          have hhalf : (1:ℚ) / 2 = 2 ^ (-1 : ℤ) := by norm_num
          rw [hhalf, ← two_zpow_add]
          congr 1
          ring
      _ = 2 ^ (qfloorLog2 z.natAbs 1 + E) * 2 ^ (-24 : ℤ) := by
          rw [← two_zpow_add]
          congr 1
          omega
      _ ≤ qval z 1 E * 2 ^ (-24 : ℤ) := by
          exact mul_le_mul_of_nonneg_right hv_low (two_zpow_pos _).le
  have hsg : ¬ (z < 0) := by omega
  by_cases hn24 : rneND (numScaled z.natAbs E (etF32 z.natAbs 1 E))
      (denScaled 1 E (etF32 z.natAbs 1 E)) = 2 ^ 24
  · refine ⟨2 ^ 23, etF32 z.natAbs 1 E + 1, ?_, by norm_num, ?_⟩
    · unfold roundQ
      simp only [Int.natAbs_one]
      rw [hn24, roundFin_carry _ _ (by omega)]
      simp [hsg]
    · have hval : ((2 ^ 23 : ℤ) : ℚ) * 2 ^ (etF32 z.natAbs 1 E + 1)
          = ((rneND (numScaled z.natAbs E (etF32 z.natAbs 1 E))
              (denScaled 1 E (etF32 z.natAbs 1 E)) : ℕ) : ℚ) * 2 ^ etF32 z.natAbs 1 E := by
        rw [hn24, two_zpow_add]
        push_cast
        ring
      rw [hval]
      exact hkey
  · refine ⟨(rneND (numScaled z.natAbs E (etF32 z.natAbs 1 E))
      (denScaled 1 E (etF32 z.natAbs 1 E)) : ℤ), etF32 z.natAbs 1 E, ?_, ?_, ?_⟩
    · unfold roundQ
      simp only [Int.natAbs_one]
      rw [roundFin_fin _ _ _ hn0pos hn24 (by omega)]
      simp [hsg]
    · exact_mod_cast Nat.pos_of_ne_zero hn0pos
    · exact_mod_cast hkey

/-! ### Value-level behaviour of the binary32 operations -/

theorem vals_val (x : F32) (v : ℚ) (h : Vals x v) : F32.val x = some v := by
  rcases h with ⟨⟨s, hx⟩, hv⟩ | ⟨m, e, hx, hv⟩
  · rw [hx, hv]
    rfl
  · rw [hx, ← hv]
    rfl

theorem vals_zero (s : Bool) : Vals (F32.zero s) 0 := Or.inl ⟨⟨s, rfl⟩, rfl⟩

theorem vals_fin (m e : ℤ) (v : ℚ) (hv : (m : ℚ) * 2 ^ e = v) : Vals (F32.fin m e) v :=
  Or.inr ⟨m, e, rfl, hv⟩

theorem repF32_of (z E : ℤ) (hz : z ≠ 0) (h24 : |z| < 2 ^ 24) (h1 : -149 ≤ E)
    (h2 : E ≤ 104) : RepF32 ((z : ℚ) * 2 ^ E) := ⟨z, E, rfl, hz, h24, h1, h2⟩

theorem alignS_val (m1 e1 m2 e2 : ℤ) :
    ((F32.alignS m1 e1 m2 e2 : ℤ) : ℚ) * 2 ^ min e1 e2
      = (m1 : ℚ) * 2 ^ e1 + (m2 : ℚ) * 2 ^ e2 := by
  unfold F32.alignS
  by_cases h : e2 ≤ e1
  · rw [if_pos h, min_eq_right h]
    push_cast
    rw [two_zpow_toNat (by omega : (0:ℤ) ≤ e1 - e2)]
    have hsplit : (2:ℚ) ^ (e1 - e2) * 2 ^ e2 = 2 ^ e1 := by
      rw [← two_zpow_add]
      congr 1
      ring
    calc ((m1 : ℚ) * 2 ^ (e1 - e2) + m2) * 2 ^ e2
        = (m1 : ℚ) * ((2:ℚ) ^ (e1 - e2) * 2 ^ e2) + (m2 : ℚ) * 2 ^ e2 := by ring
      _ = (m1 : ℚ) * 2 ^ e1 + (m2 : ℚ) * 2 ^ e2 := by rw [hsplit]
  · rw [if_neg h, min_eq_left (by omega : e1 ≤ e2)]
    push_cast
    rw [two_zpow_toNat (by omega : (0:ℤ) ≤ e2 - e1)]
    have hsplit : (2:ℚ) ^ (e2 - e1) * 2 ^ e1 = 2 ^ e2 := by
      rw [← two_zpow_add]
      congr 1
      ring
    calc ((m1 : ℚ) + (m2 : ℚ) * 2 ^ (e2 - e1)) * 2 ^ e1
        = (m1 : ℚ) * 2 ^ e1 + (m2 : ℚ) * ((2:ℚ) ^ (e2 - e1) * 2 ^ e1) := by ring
      _ = (m1 : ℚ) * 2 ^ e1 + (m2 : ℚ) * 2 ^ e2 := by rw [hsplit]

theorem roundQ_zero_num (den E : ℤ) : roundQ 0 den E = F32.zero false := by
  unfold roundQ
  have hnum : numScaled (0:ℤ).natAbs E (etF32 (0:ℤ).natAbs den.natAbs E) = 0 := by
    unfold numScaled
    split_ifs <;> simp
  rw [hnum]
  have hrne : rneND 0 (denScaled den.natAbs E (etF32 (0:ℤ).natAbs den.natAbs E)) = 0 := by
    unfold rneND
    simp
  rw [hrne]
  unfold roundFin
  rw [if_pos rfl]
  norm_num

theorem vals_add (x y : F32) (p q : ℚ) (hx : Vals x p) (hy : Vals y q)
    (hrep : p + q = 0 ∨ RepF32 (p + q)) : Vals (F32.add x y) (p + q) := by
  rcases hx with ⟨⟨s, hxe⟩, hp⟩ | ⟨m1, e1, hxe, hp⟩ <;>
    rcases hy with ⟨⟨t, hye⟩, hq⟩ | ⟨m2, e2, hye, hq⟩ <;> subst hxe <;> subst hye
  · rw [hp, hq, show (0:ℚ) + 0 = 0 by ring]
    exact vals_zero _
  · rw [hp]
    rw [show (0:ℚ) + q = q by ring]
    exact vals_fin m2 e2 q hq
  · rw [hq]
    rw [show p + (0:ℚ) = p by ring]
    exact vals_fin m1 e1 p hp
  · show Vals (if F32.alignS m1 e1 m2 e2 = 0 then F32.zero false
      else roundQ (F32.alignS m1 e1 m2 e2) 1 (min e1 e2)) (p + q)
    have hS : ((F32.alignS m1 e1 m2 e2 : ℤ) : ℚ) * 2 ^ min e1 e2 = p + q := by
      rw [alignS_val, hp, hq]
    by_cases h0 : F32.alignS m1 e1 m2 e2 = 0
    · rw [if_pos h0]
      have : p + q = 0 := by
        rw [← hS, h0]
        norm_num
      rw [this]
      exact vals_zero _
    · rw [if_neg h0]
      have hne : p + q ≠ 0 := by
        rw [← hS]
        have h2 : ((F32.alignS m1 e1 m2 e2 : ℤ) : ℚ) ≠ 0 := by exact_mod_cast h0
        exact mul_ne_zero h2 (ne_of_gt (two_zpow_pos _))
      have hqv : qval (F32.alignS m1 e1 m2 e2) 1 (min e1 e2) = p + q := by
        unfold qval
        rw [← hS]
        norm_num
      rcases hrep with hrep | hrep
      · exact absurd hrep hne
      · obtain ⟨m, e, heq, hval, _⟩ := roundQ_exact _ 1 _ h0 (by norm_num) (hqv ▸ hrep)
        rw [heq]
        exact vals_fin m e (p + q) (by rw [hval, hqv])

theorem vals_neg (x : F32) (p : ℚ) (hx : Vals x p) : Vals (F32.neg x) (-p) := by
  rcases hx with ⟨⟨s, hxe⟩, hp⟩ | ⟨m, e, hxe, hp⟩ <;> subst hxe
  · rw [hp]
    rw [show -(0:ℚ) = 0 by ring]
    exact vals_zero _
  · exact vals_fin (-m) e (-p) (by push_cast; rw [← hp]; ring)

theorem vals_sub (x y : F32) (p q : ℚ) (hx : Vals x p) (hy : Vals y q)
    (hrep : p - q = 0 ∨ RepF32 (p - q)) : Vals (F32.sub x y) (p - q) := by
  unfold F32.sub
  have h := vals_add x (F32.neg y) p (-q) hx (vals_neg y q hy)
    (by rw [show p + -q = p - q by ring]; exact hrep)
  rw [show p + -q = p - q by ring] at h
  exact h

theorem vals_mul (x y : F32) (p q : ℚ) (hx : Vals x p) (hy : Vals y q)
    (hrep : p * q = 0 ∨ RepF32 (p * q)) : Vals (F32.mul x y) (p * q) := by
  rcases hx with ⟨⟨s, hxe⟩, hp⟩ | ⟨m1, e1, hxe, hp⟩ <;>
    rcases hy with ⟨⟨t, hye⟩, hq⟩ | ⟨m2, e2, hye, hq⟩ <;> subst hxe <;> subst hye
  · rw [hp, hq, show (0:ℚ) * 0 = 0 by ring]
    exact vals_zero _
  · rw [hp, show (0:ℚ) * q = 0 by ring]
    exact vals_zero _
  · rw [hq, show p * (0:ℚ) = 0 by ring]
    exact vals_zero _
  · show Vals (roundQ (m1 * m2) 1 (e1 + e2)) (p * q)
    have hval : ((m1 * m2 : ℤ) : ℚ) * 2 ^ (e1 + e2) = p * q := by
      rw [two_zpow_add, ← hp, ← hq]
      push_cast
      ring
    by_cases h0 : m1 * m2 = 0
    · rw [h0, roundQ_zero_num]
      have : p * q = 0 := by
        rw [← hval, h0]
        norm_num
      rw [this]
      exact vals_zero _
    · have hne : p * q ≠ 0 := by
        rw [← hval]
        have h2 : ((m1 * m2 : ℤ) : ℚ) ≠ 0 := by exact_mod_cast h0
        exact mul_ne_zero h2 (ne_of_gt (two_zpow_pos _))
      have hqv : qval (m1 * m2) 1 (e1 + e2) = p * q := by
        unfold qval
        rw [← hval]
        norm_num
      rcases hrep with hrep | hrep
      · exact absurd hrep hne
      · obtain ⟨m, e, heq, hv, _⟩ := roundQ_exact _ 1 _ h0 (by norm_num) (hqv ▸ hrep)
        rw [heq]
        exact vals_fin m e (p * q) (by rw [hv, hqv])

theorem roundQ_den_natAbs (z d E : ℤ) : roundQ z d E = roundQ z (d.natAbs : ℤ) E := by
  unfold roundQ
  simp only [Int.natAbs_ofNat]

theorem vals_div (x y : F32) (p q : ℚ) (hx : Vals x p) (hy : Vals y q) (hq0 : q ≠ 0)
    (hrep : p = 0 ∨ RepF32 (p / q)) : Vals (F32.div x y) (p / q) := by
  rcases hy with ⟨⟨t, hye⟩, hqz⟩ | ⟨m2, e2, hye, hq⟩
  · exact absurd hqz hq0
  subst hye
  have hm2 : m2 ≠ 0 := by
    intro h
    apply hq0
    rw [← hq, h]
    norm_num
  have hBQ : ((m2 : ℤ) : ℚ) ≠ 0 := by exact_mod_cast hm2
  have hY : (2:ℚ) ^ e2 ≠ 0 := ne_of_gt (two_zpow_pos _)
  rcases hx with ⟨⟨s, hxe⟩, hp⟩ | ⟨m1, e1, hxe, hp⟩ <;> subst hxe
  · show Vals (F32.zero (Bool.xor s (decide (m2 < 0)))) (p / q)
    rw [hp, zero_div]
    exact vals_zero _
  · show Vals (roundQ (if m2 < 0 then -m1 else m1) m2 (e1 - e2)) (p / q)
    by_cases hm1 : m1 = 0
    · have hp0 : p = 0 := by
        rw [← hp, hm1]
        norm_num
      have hnum0 : (if m2 < 0 then -m1 else m1) = 0 := by
        rw [hm1]
        split_ifs <;> ring
      rw [hnum0, roundQ_zero_num, hp0, zero_div]
      exact vals_zero _
    · have hpne : p ≠ 0 := by
        rw [← hp]
        exact mul_ne_zero (by exact_mod_cast hm1) (ne_of_gt (two_zpow_pos _))
      have hrep' : RepF32 (p / q) := by
        rcases hrep with h | h
        · exact absurd h hpne
        · exact h
      have hnum_ne : (if m2 < 0 then -m1 else m1) ≠ 0 := by
        split_ifs <;> omega
      have hdpos : (0:ℤ) < (m2.natAbs : ℤ) := by
        have := Int.natAbs_pos.mpr hm2
        exact_mod_cast this
      have h2e : (2:ℚ) ^ (e1 - e2) = 2 ^ e1 / 2 ^ e2 :=
        zpow_sub₀ (by norm_num : (2:ℚ) ≠ 0) e1 e2
      have habsQ : ((m2.natAbs : ℤ) : ℚ) = |(m2 : ℚ)| := by
        rw [← Int.abs_eq_natAbs, Int.cast_abs]
      have hqv : qval (if m2 < 0 then -m1 else m1) (m2.natAbs : ℤ) (e1 - e2) = p / q := by
        unfold qval
        rw [← hp, ← hq]
        by_cases hneg : m2 < 0
        · rw [if_pos hneg]
          have habs2 : ((m2.natAbs : ℤ) : ℚ) = -(m2 : ℚ) := by
            rw [habsQ, abs_of_neg (by exact_mod_cast hneg : ((m2:ℤ):ℚ) < 0)]
          rw [habs2, h2e]
          push_cast
          field_simp
        · rw [if_neg hneg]
          have habs2 : ((m2.natAbs : ℤ) : ℚ) = (m2 : ℚ) := by
            have hpos : (0:ℚ) < ((m2:ℤ):ℚ) := by
              have : 0 < m2 := by omega
              exact_mod_cast this
            rw [habsQ, abs_of_pos hpos]
          rw [habs2, h2e]
          field_simp
      rw [roundQ_den_natAbs]
      obtain ⟨m, e, heq, hval, _⟩ := roundQ_exact _ _ _ hnum_ne hdpos (hqv ▸ hrep')
      rw [heq]
      exact vals_fin m e _ (by rw [hval, hqv])

theorem vals_ofInt (z : ℤ) (h24 : |z| < 2 ^ 24) : Vals (F32.ofInt z) (z : ℚ) := by
  unfold F32.ofInt
  by_cases h0 : z = 0
  · rw [if_pos h0, h0, Int.cast_zero]
    exact vals_zero _
  · rw [if_neg h0]
    have hqv : qval z 1 0 = (z : ℚ) := by
      unfold qval
      norm_num
    have hrep : RepF32 (qval z 1 0) := by
      rw [hqv]
      have h := repF32_of z 0 h0 h24 (by norm_num) (by norm_num)
      rwa [show (z : ℚ) * 2 ^ (0:ℤ) = (z : ℚ) by norm_num] at h
    obtain ⟨m, e, heq, hval, _⟩ := roundQ_exact z 1 0 h0 (by norm_num) hrep
    rw [heq]
    exact vals_fin m e _ (by rw [hval, hqv])

/-! ### From the pointer-walking loops to folds over the input prefix -/

theorem walk_length (mem : ℕ → F32) : ∀ k p, (walk mem p k).length = k := by
  intro k
  induction k with
  | zero => intro p; rfl
  | succ n ih =>
    intro p
    show (mem p :: walk mem (p+1) n).length = n + 1
    rw [List.length_cons, ih]

theorem walk_add (mem : ℕ → F32) : ∀ a p b,
    walk mem p (a + b) = walk mem p a ++ walk mem (p + a) b := by
  intro a
  induction a with
  | zero =>
    intro p b
    simp [walk]
  | succ n ih =>
    intro p b
    have h1 : n + 1 + b = (n + b) + 1 := by omega
    rw [h1]
    show mem p :: walk mem (p+1) (n + b) = (mem p :: walk mem (p+1) n) ++ walk mem (p + (n+1)) b
    rw [List.cons_append, ih (p+1) b]
    have h2 : p + 1 + n = p + (n + 1) := by omega
    rw [h2]

theorem walk_congr (mem mem' : ℕ → F32) : ∀ k p,
    (∀ i, p ≤ i → i < p + k → mem i = mem' i) → walk mem p k = walk mem' p k := by
  intro k
  induction k with
  | zero => intro p _; rfl
  | succ n ih =>
    intro p h
    show mem p :: walk mem (p+1) n = mem' p :: walk mem' (p+1) n
    rw [h p (le_refl p) (by omega), ih (p+1) (fun i h1 h2 => h i (by omega) (by omega))]

theorem walk_mem_elem (mem : ℕ → F32) : ∀ k p i, i < k → mem (p + i) ∈ walk mem p k := by
  intro k
  induction k with
  | zero => intro p i h; omega
  | succ n ih =>
    intro p i h
    show mem (p + i) ∈ mem p :: walk mem (p+1) n
    by_cases hi : i = 0
    · subst hi
      rw [Nat.add_zero]
      exact List.mem_cons_self _ _
    · have h2 : mem (p + i) = mem ((p + 1) + (i - 1)) := by
        congr 1
        omega
      rw [h2]
      exact List.mem_cons_of_mem _ (ih (p+1) (i-1) (by omega))

theorem walk_all (mem : ℕ → F32) : ∀ k p x, x ∈ walk mem p k → ∃ i, i < k ∧ x = mem (p + i) := by
  intro k
  induction k with
  | zero => intro p x h; exact absurd h (List.not_mem_nil x)
  | succ n ih =>
    intro p x h
    rcases List.mem_cons.mp h with h1 | h1
    · exact ⟨0, by omega, by rw [h1, Nat.add_zero]⟩
    · obtain ⟨i, hi, hx⟩ := ih (p+1) x h1
      exact ⟨i + 1, by omega, by rw [hx]; congr 1; omega⟩

theorem pass1Tail_eq (mem : ℕ → F32) : ∀ k p acc,
    pass1Tail mem p k acc = (p + k, (walk mem p k).foldl F32.add acc) := by
  intro k
  induction k with
  | zero => intro p acc; rfl
  | succ n ih =>
    intro p acc
    show pass1Tail mem (p+1) n (F32.add acc (mem p)) = _
    rw [ih (p+1) (F32.add acc (mem p))]
    have hp : p + 1 + n = p + (n + 1) := by omega
    rw [hp]
    rfl

theorem pass1Unroll_eq (mem : ℕ → F32) : ∀ k p acc,
    pass1Unroll mem p k acc = (p + 4 * k, (walk mem p (4 * k)).foldl F32.add acc) := by
  intro k
  induction k with
  | zero => intro p acc; rfl
  | succ n ih =>
    intro p acc
    show pass1Unroll mem (p+4) n
        (F32.add (F32.add (F32.add (F32.add acc (mem p)) (mem (p+1))) (mem (p+2))) (mem (p+3)))
      = _
    rw [ih (p+4)]
    have h4 : 4 * (n + 1) = 4 + 4 * n := by omega
    rw [h4, walk_add mem 4 p (4 * n)]
    rw [List.foldl_append]
    have hp : p + 4 + 4 * n = p + (4 + 4 * n) := by omega
    rw [hp]
    rfl

theorem pass2Tail_eq (mem : ℕ → F32) (fMean : F32) : ∀ k p acc,
    pass2Tail mem fMean p k acc = (p + k, (walk mem p k).foldl (sqDevStep fMean) acc) := by
  intro k
  induction k with
  | zero => intro p acc; rfl
  | succ n ih =>
    intro p acc
    show pass2Tail mem fMean (p+1) n (sqDevStep fMean acc (mem p)) = _
    rw [ih (p+1)]
    have hp : p + 1 + n = p + (n + 1) := by omega
    rw [hp]
    rfl

theorem pass2Unroll_eq (mem : ℕ → F32) (fMean : F32) : ∀ k p acc,
    pass2Unroll mem fMean p k acc = (p + 4 * k, (walk mem p (4 * k)).foldl (sqDevStep fMean) acc) := by
  intro k
  induction k with
  | zero => intro p acc; rfl
  | succ n ih =>
    intro p acc
    show pass2Unroll mem fMean (p+4) n
        (sqDevStep fMean (sqDevStep fMean (sqDevStep fMean (sqDevStep fMean acc (mem p))
          (mem (p+1))) (mem (p+2))) (mem (p+3)))
      = _
    rw [ih (p+4)]
    have h4 : 4 * (n + 1) = 4 + 4 * n := by omega
    rw [h4, walk_add mem 4 p (4 * n)]
    rw [List.foldl_append]
    have hp : p + 4 + 4 * n = p + (4 + 4 * n) := by omega
    rw [hp]
    rfl

theorem blockSize_split (N : ℕ) : 4 * (N >>> 2) + N % 4 = N := by
  rw [Nat.shiftRight_eq_div_pow, show (2:ℕ) ^ 2 = 4 from rfl]
  omega

theorem foldl_walk_glue (f : F32 → F32 → F32) (mem : ℕ → F32) (a b : ℕ) (acc : F32) :
    (walk mem a b).foldl f ((walk mem 0 a).foldl f acc) = (walk mem 0 (a + b)).foldl f acc := by
  rw [walk_add mem a 0 b, Nat.zero_add, List.foldl_append]

theorem arm_var_f32_eq_list (mem : ℕ → F32) (N : ℕ) :
    arm_var_f32 mem N = varTwoPass (prefixVec mem N) := by
  unfold arm_var_f32 varTwoPass
  rw [show (prefixVec mem N).length = N from walk_length mem N 0]
  by_cases hN : N ≤ 1
  · rw [if_pos hN, if_pos hN]
  · rw [if_neg hN, if_neg hN]
    simp only [pass1Unroll_eq, pass1Tail_eq, pass2Unroll_eq, pass2Tail_eq, Nat.zero_add]
    rw [foldl_walk_glue F32.add mem (4 * (N >>> 2)) (N % 4) (F32.zero false)]
    rw [foldl_walk_glue (sqDevStep _) mem (4 * (N >>> 2)) (N % 4) (F32.zero false)]
    rw [blockSize_split N]
    rfl

theorem arm_var_f32_cm0_cm3_eq_list (mem : ℕ → F32) (N : ℕ) :
    arm_var_f32_cm0_cm3 mem N = varTwoPass (prefixVec mem N) := by
  unfold arm_var_f32_cm0_cm3 varTwoPass
  rw [show (prefixVec mem N).length = N from walk_length mem N 0]
  by_cases hN : N ≤ 1
  · rw [if_pos hN, if_pos hN]
  · rw [if_neg hN, if_neg hN]
    simp only [pass1Tail_eq, pass2Tail_eq, Nat.zero_add]
    rfl

/-! ### Canonical representations and exactness of the divisor -/

theorem canon_unique_le (m1 e1 m2 e2 : ℤ) (h1 : IsCanon m1 e1) (h2 : IsCanon m2 e2)
    (hv : (m1 : ℚ) * 2 ^ e1 = (m2 : ℚ) * 2 ^ e2) (hle : e1 ≤ e2) :
    m1 = m2 ∧ e1 = e2 := by
  obtain ⟨hm1ne, hm1lt, he1lo, hc1⟩ := h1
  obtain ⟨hm2ne, hm2lt, he2lo, hc2⟩ := h2
  have hd : e2 = e1 + ((e2 - e1).toNat : ℤ) := by omega
  have h2e : (2:ℚ) ^ e2 = 2 ^ e1 * 2 ^ ((e2 - e1).toNat : ℤ) := by
    rw [← two_zpow_add, ← hd]
  have hzc : (2:ℚ) ^ ((e2 - e1).toNat : ℤ) = 2 ^ (e2 - e1).toNat := zpow_natCast 2 _
  have hne : (2:ℚ) ^ e1 ≠ 0 := ne_of_gt (two_zpow_pos _)
  have hv' : (m1 : ℚ) * 2 ^ e1 = ((m2 : ℚ) * 2 ^ (e2 - e1).toNat) * 2 ^ e1 := by
    rw [hv, h2e, hzc]
    ring
  have hQ : (m1 : ℚ) = (m2 : ℚ) * 2 ^ (e2 - e1).toNat := mul_right_cancel₀ hne hv'
  have hZ : m1 = m2 * 2 ^ (e2 - e1).toNat := by exact_mod_cast hQ
  by_cases hk : (e2 - e1).toNat = 0
  · constructor
    · rw [hZ, hk, pow_zero, mul_one]
    · omega
  · exfalso
    have he2 : e2 ≠ -149 := by omega
    have hm2big : (2:ℤ) ^ 23 ≤ |m2| := by
      rcases hc2 with h | h
      · exact absurd h he2
      · exact h
    have hk1 : 1 ≤ (e2 - e1).toNat := by omega
    have hpow : (2:ℤ) ^ 1 ≤ 2 ^ (e2 - e1).toNat := pow_le_pow_right₀ (by norm_num) hk1
    have habs : |m1| = |m2| * 2 ^ (e2 - e1).toNat := by
      rw [hZ, abs_mul, abs_pow]
      norm_num
    have hbig : (2:ℤ) ^ 24 ≤ |m1| := by
      calc (2:ℤ) ^ 24 = 2 ^ 23 * 2 ^ 1 := by norm_num
        _ ≤ |m2| * 2 ^ (e2 - e1).toNat :=
            mul_le_mul hm2big hpow (by norm_num) (abs_nonneg _)
        _ = |m1| := habs.symm
    exact absurd hm1lt (not_lt.mpr hbig)

theorem canon_unique (m1 e1 m2 e2 : ℤ) (h1 : IsCanon m1 e1) (h2 : IsCanon m2 e2)
    (hv : (m1 : ℚ) * 2 ^ e1 = (m2 : ℚ) * 2 ^ e2) : m1 = m2 ∧ e1 = e2 := by
  rcases le_total e1 e2 with h | h
  · exact canon_unique_le m1 e1 m2 e2 h1 h2 hv h
  · obtain ⟨hm, he⟩ := canon_unique_le m2 e2 m1 e1 h2 h1 hv.symm h
    exact ⟨hm.symm, he.symm⟩

theorem repF32_int (z : ℤ) (hz : z ≠ 0) (h : |z| ≤ 2 ^ 24) : RepF32 (z : ℚ) := by
  by_cases h' : |z| < 2 ^ 24
  · have hr := repF32_of z 0 hz h' (by norm_num) (by norm_num)
    rwa [show (z : ℚ) * 2 ^ (0:ℤ) = (z : ℚ) by norm_num] at hr
  · have hz24 : z = 2 ^ 24 ∨ z = -(2 ^ 24) := by
      rcases abs_cases z with ⟨he, _⟩ | ⟨he, _⟩ <;> omega
    rcases hz24 with h24 | h24 <;> subst h24
    · have hr := repF32_of (2 ^ 23) 1 (by norm_num) (by norm_num) (by norm_num) (by norm_num)
      rwa [show (((2:ℤ) ^ 23 : ℤ) : ℚ) * 2 ^ (1:ℤ) = (((2:ℤ) ^ 24 : ℤ) : ℚ) by norm_num] at hr
    · have hr := repF32_of (-(2 ^ 23)) 1 (by norm_num) (by norm_num) (by norm_num) (by norm_num)
      rwa [show ((-((2:ℤ) ^ 23) : ℤ) : ℚ) * 2 ^ (1:ℤ) = ((-((2:ℤ) ^ 24) : ℤ) : ℚ) by norm_num] at hr

theorem ofInt_canon (z : ℤ) (hz : z ≠ 0) (h : |z| ≤ 2 ^ 24) :
    ∃ m e : ℤ, F32.ofInt z = F32.fin m e ∧ (m : ℚ) * 2 ^ e = (z : ℚ) ∧ IsCanon m e := by
  unfold F32.ofInt
  rw [if_neg hz]
  have hqv : qval z 1 0 = (z : ℚ) := by
    unfold qval
    norm_num
  have hrep : RepF32 (qval z 1 0) := by
    rw [hqv]
    exact repF32_int z hz h
  obtain ⟨m, e, heq, hval, hcan⟩ := roundQ_exact z 1 0 hz (by norm_num) hrep
  exact ⟨m, e, heq, by rw [hval, hqv], hcan⟩

theorem divisor_exact (N : ℕ) (h2 : 2 ≤ N) (h24 : N ≤ 2 ^ 24) :
    F32.sub (F32.ofNat32 N) (F32.ofInt 1) = F32.ofNat32 (N - 1) := by
  have hNz : (N : ℤ) ≠ 0 := by omega
  have hNle : (N : ℤ) ≤ 2 ^ 24 := by exact_mod_cast h24
  have hNabs : |(N : ℤ)| ≤ 2 ^ 24 := by
    rw [abs_of_nonneg (Int.natCast_nonneg N)]
    exact hNle
  obtain ⟨mN, eN, hNf, hNv, hNc⟩ := ofInt_canon (N : ℤ) hNz hNabs
  have h1f : F32.ofInt 1 = F32.fin 8388608 (-23) := by decide
  unfold F32.ofNat32 F32.sub
  rw [hNf, h1f]
  show (if F32.alignS mN eN (-8388608) (-23) = 0 then F32.zero false
      else roundQ (F32.alignS mN eN (-8388608) (-23)) 1 (min eN (-23)))
    = F32.ofInt ((N - 1 : ℕ) : ℤ)
  have hSval : ((F32.alignS mN eN (-8388608) (-23) : ℤ) : ℚ) * 2 ^ min eN (-23 : ℤ)
      = (N : ℚ) - 1 := by
    rw [alignS_val, hNv]
    norm_num
    ring_nf
  have hN1 : (1:ℚ) ≤ (N : ℚ) - 1 := by
    have h2Q : (2:ℚ) ≤ (N : ℚ) := by exact_mod_cast h2
    linarith
  have hS0 : F32.alignS mN eN (-8388608) (-23) ≠ 0 := by
    intro h
    have h0 : (N : ℚ) - 1 = 0 := by
      rw [← hSval, h]
      norm_num
    linarith
  rw [if_neg hS0]
  have hqv : qval (F32.alignS mN eN (-8388608) (-23)) 1 (min eN (-23)) = (N : ℚ) - 1 := by
    unfold qval
    rw [← hSval]
    norm_num
  have hlt : |(N:ℤ) - 1| < 2 ^ 24 := by
    rw [abs_of_nonneg (by omega : (0:ℤ) ≤ (N:ℤ) - 1)]
    linarith
  have hrepd : RepF32 (qval (F32.alignS mN eN (-8388608) (-23)) 1 (min eN (-23))) := by
    rw [hqv]
    have hr := repF32_of ((N : ℤ) - 1) 0 (by omega) hlt (by norm_num) (by norm_num)
    rwa [show (((N:ℤ) - 1 : ℤ) : ℚ) * 2 ^ (0:ℤ) = (N : ℚ) - 1 by push_cast; ring] at hr
  obtain ⟨m1, e1, heq1, hv1, hc1⟩ := roundQ_exact _ 1 _ hS0 (by norm_num) hrepd
  have hRz : ((N - 1 : ℕ) : ℤ) ≠ 0 := by omega
  have hRabs : |((N - 1 : ℕ) : ℤ)| ≤ 2 ^ 24 := by
    rw [abs_of_nonneg (Int.natCast_nonneg _)]
    have hle' : ((N - 1 : ℕ) : ℤ) ≤ (N : ℤ) := by omega
    linarith
  obtain ⟨m2, e2, heq2, hv2, hc2⟩ := ofInt_canon _ hRz hRabs
  rw [heq1, heq2]
  have hcastN1 : (((N - 1 : ℕ) : ℤ) : ℚ) = (N : ℚ) - 1 := by
    have hz' : ((N - 1 : ℕ) : ℤ) = (N : ℤ) - 1 := by omega
    rw [hz']
    push_cast
    ring
  have hveq : (m1 : ℚ) * 2 ^ e1 = (m2 : ℚ) * 2 ^ e2 := by
    rw [hv1, hv2, hqv, hcastN1]
  obtain ⟨hm, he⟩ := canon_unique m1 e1 m2 e2 hc1 hc2 hveq
  rw [hm, he]

/-! ### NaN propagation through the kernel arithmetic -/

theorem add_nan_left (x : F32) : F32.add F32.nan x = F32.nan := rfl

theorem add_nan_right (x : F32) : F32.add x F32.nan = F32.nan := by
  cases x <;> rfl

theorem div_nan_left (x : F32) : F32.div F32.nan x = F32.nan := rfl

theorem foldl_add_nan (xs : List F32) : xs.foldl F32.add F32.nan = F32.nan := by
  induction xs with
  | nil => rfl
  | cons a t ih =>
    rw [List.foldl_cons, add_nan_left]
    exact ih

theorem foldl_add_nan_mem : ∀ (xs : List F32) (acc : F32), F32.nan ∈ xs →
    xs.foldl F32.add acc = F32.nan := by
  intro xs
  induction xs with
  | nil => intro acc h; cases h
  | cons a t ih =>
    intro acc h
    rcases List.mem_cons.mp h with h | h
    · rw [List.foldl_cons, h.symm, add_nan_right]
      exact foldl_add_nan t
    · rw [List.foldl_cons]
      exact ih _ h

theorem sub_nan_right (x : F32) : F32.sub x F32.nan = F32.nan := by
  unfold F32.sub
  rw [show F32.neg F32.nan = F32.nan from rfl]
  exact add_nan_right x

theorem sqDevStep_nan_mean (acc x : F32) : sqDevStep F32.nan acc x = F32.nan := by
  unfold sqDevStep
  rw [sub_nan_right x]
  rw [show F32.mul F32.nan F32.nan = F32.nan from rfl]
  exact add_nan_right acc

theorem foldl_sqDev_nan_mean : ∀ (xs : List F32) (acc : F32), xs ≠ [] →
    xs.foldl (sqDevStep F32.nan) acc = F32.nan := by
  intro xs
  induction xs with
  | nil => intro acc h; exact absurd rfl h
  | cons a t ih =>
    intro acc _
    rw [List.foldl_cons, sqDevStep_nan_mean]
    cases t with
    | nil => rfl
    | cons b u => exact ih _ (by simp)

/-! ### Constant vectors: squared deviations from an exact mean vanish -/

theorem sub_self_finite (x : F32) (h : x.isFinite = true) :
    F32.sub x x = F32.zero false := by
  cases x with
  | nan => simp [F32.isFinite] at h
  | inf s => simp [F32.isFinite] at h
  | zero s =>
    show F32.zero (s && !s) = F32.zero false
    rw [Bool.and_not_self]
  | fin m e =>
    show (if F32.alignS m e (-m) e = 0 then F32.zero false
        else roundQ (F32.alignS m e (-m) e) 1 (min e e)) = F32.zero false
    have hS : F32.alignS m e (-m) e = 0 := by
      unfold F32.alignS
      rw [if_pos (le_refl e)]
      simp
    rw [if_pos hS]

theorem sqDevStep_self (c : F32) (h : c.isFinite = true) :
    sqDevStep c (F32.zero false) c = F32.zero false := by
  unfold sqDevStep
  rw [sub_self_finite c h]
  rfl

theorem foldl_sqDev_const (c : F32) (h : c.isFinite = true) :
    ∀ xs : List F32, (∀ x ∈ xs, x = c) →
      xs.foldl (sqDevStep c) (F32.zero false) = F32.zero false := by
  intro xs
  induction xs with
  | nil => intro _; rfl
  | cons a t ih =>
    intro hall
    rw [List.foldl_cons, hall a (List.mem_cons_self a t), sqDevStep_self c h]
    exact ih (fun x hx => hall x (List.mem_cons_of_mem a hx))

/-! ### Absorption folds for the sparse claim-C1 input -/

theorem foldl_absorb (f : F32 → F32 → F32) (x : F32) (n : ℕ) (acc : F32)
    (h : f acc x = acc) : (List.replicate n x).foldl f acc = acc := by
  induction n with
  | zero => rfl
  | succ k ih =>
    rw [List.replicate_succ, List.foldl_cons, h]
    exact ih

theorem walk_memC1 : ∀ (n p : ℕ), 1 ≤ p →
    walk memC1 p n = List.replicate n (F32.zero false) := by
  intro n
  induction n with
  | zero => intro p _; rfl
  | succ k ih =>
    intro p hp
    show memC1 p :: walk memC1 (p+1) k = _
    rw [show memC1 p = F32.zero false from by unfold memC1; rw [if_neg (by omega)]]
    rw [ih (p+1) (by omega)]
    rfl

theorem prefix_memC1 (n : ℕ) : prefixVec memC1 (n+1)
    = F32.ofInt 33554432 :: List.replicate n (F32.zero false) := by
  show memC1 0 :: walk memC1 1 n = _
  rw [walk_memC1 n 1 (le_refl 1)]
  rfl

/-! ### Representability of scaled integers; value transport -/

theorem vals_congr (x : F32) (p q : ℚ) (h : Vals x p) (he : p = q) : Vals x q := he ▸ h

theorem repOrZeroScaled (z E : ℤ) (hz : |z| ≤ 2 ^ 24) (h1 : -149 ≤ E) (h2 : E ≤ 103) :
    (z:ℚ) * 2 ^ E = 0 ∨ RepF32 ((z:ℚ) * 2 ^ E) := by
  by_cases h0 : z = 0
  · left
    rw [h0]
    norm_num
  · right
    by_cases h24 : |z| < 2 ^ 24
    · exact repF32_of z E h0 h24 h1 (by omega)
    · have hz24 : z = 2 ^ 24 ∨ z = -(2 ^ 24) := by
        rcases abs_cases z with ⟨he, _⟩ | ⟨he, _⟩ <;> omega
      rcases hz24 with h | h <;> subst h
      · have hr := repF32_of (2 ^ 23) (E + 1) (by norm_num) (by norm_num)
          (by omega) (by omega)
        rwa [show (((2:ℤ) ^ 23 : ℤ) : ℚ) * 2 ^ (E + 1) = (((2:ℤ) ^ 24 : ℤ) : ℚ) * 2 ^ E from by
          rw [two_zpow_add]
          push_cast
          ring] at hr
      · have hr := repF32_of (-(2 ^ 23)) (E + 1) (by norm_num) (by norm_num)
          (by omega) (by omega)
        rwa [show ((-((2:ℤ) ^ 23) : ℤ) : ℚ) * 2 ^ (E + 1) = ((-((2:ℤ) ^ 24) : ℤ) : ℚ) * 2 ^ E from by
          rw [two_zpow_add]
          push_cast
          ring] at hr

/-! ### The divisor `(float32)blockSize - 1.0f` is finite and positive -/

theorem divisor_pos (N : ℕ) (h2 : 2 ≤ N) (hub : N ≤ 2 ^ 32) :
    ∃ m e : ℤ, F32.sub (F32.ofNat32 N) (F32.ofInt 1) = F32.fin m e ∧ 0 < m := by
  have hNz : (0:ℤ) < (N:ℤ) := by omega
  have hq : qval (N:ℤ) 1 0 = (N:ℚ) := by
    unfold qval
    norm_num
  have hNQ2 : (2:ℚ) ≤ (N:ℚ) := by exact_mod_cast h2
  have h32lit : ((2 ^ 32 : ℕ) : ℚ) = 4294967296 := by norm_num
  have hNQub : (N:ℚ) ≤ 4294967296 := by
    have h' : (N:ℚ) ≤ ((2 ^ 32 : ℕ) : ℚ) := by exact_mod_cast hub
    rw [h32lit] at h'
    exact h' 
  have h40 : (2:ℚ) ^ (40:ℤ) = 1099511627776 := by norm_num
  have h1 : (1:ℚ)/2 ≤ qval (N:ℤ) 1 0 := by
    rw [hq]
    linarith
  have hub' : qval (N:ℤ) 1 0 ≤ 2 ^ (40:ℤ) := by
    rw [hq, h40]
    linarith
  obtain ⟨mN, eN, hNf, hmN, herr⟩ := roundQ_near_pos (N:ℤ) 0 hNz h1 hub'
  have hof : F32.ofNat32 N = F32.fin mN eN := by
    unfold F32.ofNat32 F32.ofInt
    rw [if_neg (by omega : ¬ (N:ℤ) = 0)]
    exact hNf
  rw [hq, show (2:ℚ) ^ (-24:ℤ) = 1/16777216 from by norm_num] at herr
  have habs := abs_le.mp herr
  have hvlow : (3:ℚ)/2 ≤ (mN:ℚ) * 2 ^ eN := by
    linarith [habs.1]
  have hvhigh : (mN:ℚ) * 2 ^ eN ≤ 1099511627775 := by
    nlinarith [habs.2, hNQub]
  unfold F32.sub
  rw [hof, show F32.ofInt 1 = F32.fin 8388608 (-23) from by decide]
  rw [show F32.neg (F32.fin 8388608 (-23)) = F32.fin (-8388608) (-23) from rfl]
  show ∃ m e : ℤ, (if F32.alignS mN eN (-8388608) (-23) = 0 then F32.zero false
      else roundQ (F32.alignS mN eN (-8388608) (-23)) 1 (min eN (-23))) = F32.fin m e ∧ 0 < m
  have hSval : ((F32.alignS mN eN (-8388608) (-23) : ℤ) : ℚ) * 2 ^ min eN (-23:ℤ)
      = (mN:ℚ) * 2 ^ eN - 1 := by
    rw [alignS_val]
    norm_num
    ring_nf
  have hSpos : 0 < F32.alignS mN eN (-8388608) (-23) := by
    by_contra hc
    push_neg at hc
    have hle : ((F32.alignS mN eN (-8388608) (-23) : ℤ) : ℚ) ≤ 0 := by exact_mod_cast hc
    nlinarith [mul_le_mul_of_nonneg_right hle (two_zpow_pos (min eN (-23:ℤ))).le, hSval, hvlow]
  rw [if_neg (by omega : ¬ F32.alignS mN eN (-8388608) (-23) = 0)]
  have hqv2 : qval (F32.alignS mN eN (-8388608) (-23)) 1 (min eN (-23))
      = (mN:ℚ) * 2 ^ eN - 1 := by
    unfold qval
    rw [← hSval]
    norm_num
  have h1' : (1:ℚ)/2 ≤ qval (F32.alignS mN eN (-8388608) (-23)) 1 (min eN (-23)) := by
    rw [hqv2]
    linarith
  have h2' : qval (F32.alignS mN eN (-8388608) (-23)) 1 (min eN (-23)) ≤ 2 ^ (40:ℤ) := by
    rw [hqv2, h40]
    linarith
  obtain ⟨m, e, heq, hm, _⟩ := roundQ_near_pos _ _ hSpos h1' h2'
  exact ⟨m, e, heq, hm⟩

/-! ### The claims -/

/-- C2: for every input vector and for `blockSize` equal to 0 or 1, both
build paths of `arm_var_f32` write exactly `+0.0f` to `*pResult` (a single
store), regardless of the input contents. -/
theorem claimC2 (mem : ℕ → F32) :
    arm_var_f32 mem 0 = F32.zero false ∧ arm_var_f32 mem 1 = F32.zero false ∧
    arm_var_f32_cm0_cm3 mem 0 = F32.zero false ∧
    arm_var_f32_cm0_cm3 mem 1 = F32.zero false ∧
    arm_var_f32_resultWrites mem 0 = [F32.zero false] ∧
    arm_var_f32_resultWrites mem 1 = [F32.zero false] :=
  ⟨rfl, rfl, rfl, rfl, rfl, rfl⟩

/-- C3: for every input vector and every `blockSize`, the 4-way-unrolled
Cortex-M4/M7 build path and the single-element Cortex-M0/M3 build path of
`arm_var_f32` produce bit-identical results. -/
theorem claimC3 (mem : ℕ → F32) (N : ℕ) :
    arm_var_f32 mem N = arm_var_f32_cm0_cm3 mem N := by
  rw [arm_var_f32_eq_list, arm_var_f32_cm0_cm3_eq_list]

/-- C4: for the input `[2, 4, 4, 4, 5, 5, 7, 9]` with `blockSize = 8`,
the kernel computes sum 40, mean exactly `5.0`, sum of squared deviations
exactly `32.0`, and both build paths write `32.0f / 7.0f` (the divisor
`(float32)8 - 1.0f` being exactly `7.0f`) to `*pResult`. -/
theorem claimC4 :
    sumF32 (prefixVec mem8 8) = F32.ofInt 40 ∧
    F32.div (sumF32 (prefixVec mem8 8)) (F32.ofNat32 8) = F32.ofInt 5 ∧
    sqDevSum (F32.ofInt 5) (prefixVec mem8 8) = F32.ofInt 32 ∧
    arm_var_f32 mem8 8 = F32.div (F32.ofInt 32) (F32.ofInt 7) ∧
    arm_var_f32_cm0_cm3 mem8 8 = F32.div (F32.ofInt 32) (F32.ofInt 7) := by
  decide

/-- C5 (amended to `blockSize ≥ 2`): if any of the first `blockSize` input
elements is NaN, the value `arm_var_f32` writes to `*pResult` is NaN.  For
`blockSize ≤ 1` the early-return path writes `0` without reading the
input, so the original unconditional wording fails there
(see the counterexample). -/
theorem claimC5 (mem : ℕ → F32) (N : ℕ) (h2 : 2 ≤ N) (i : ℕ) (hi : i < N)
    (hnan : mem i = F32.nan) : arm_var_f32 mem N = F32.nan := by
  rw [arm_var_f32_eq_list]
  unfold varTwoPass
  rw [show (prefixVec mem N).length = N from walk_length mem N 0]
  rw [if_neg (by omega)]
  have hmem : F32.nan ∈ prefixVec mem N := by
    have hw := walk_mem_elem mem N 0 i hi
    rwa [Nat.zero_add, hnan] at hw
  have hsum : sumF32 (prefixVec mem N) = F32.nan := foldl_add_nan_mem _ _ hmem
  rw [hsum, div_nan_left]
  have hne : prefixVec mem N ≠ [] := by
    intro hnil
    have hlen := walk_length mem N 0
    rw [show walk mem 0 N = prefixVec mem N from rfl, hnil] at hlen
    simp at hlen
    omega
  rw [show sqDevSum F32.nan (prefixVec mem N) = F32.nan from
    foldl_sqDev_nan_mean (prefixVec mem N) (F32.zero false) hne]
  exact div_nan_left _

theorem claimC5_witness :
    (0:ℕ) < 2 ∧ (fun _ : ℕ => F32.nan) 0 = F32.nan ∧
    arm_var_f32 (fun _ : ℕ => F32.nan) 2 = F32.nan :=
  ⟨by decide, rfl, claimC5 (fun _ => F32.nan) 2 (by decide) 0 (by decide) rfl⟩

/-- C5 counterexample to the original unconditional claim: at
`blockSize = 1` the first element is NaN yet the kernel writes `+0.0f`,
not NaN. -/
theorem claimC5_cex :
    (fun _ : ℕ => F32.nan) 0 = F32.nan ∧ (0:ℕ) < 1 ∧
    arm_var_f32 (fun _ : ℕ => F32.nan) 1 ≠ F32.nan := by
  refine ⟨rfl, by decide, ?_⟩
  decide

/-- C8: the kernel never writes to the input vector (the model's memory is
read-only by construction, so the frame claim is expressed as: the write
trace through `pResult` is exactly one store of the returned value), and
the result is a deterministic function of the first `blockSize` elements
alone — two memories agreeing below `blockSize` give identical results. -/
theorem claimC8 (mem mem2 : ℕ → F32) (N : ℕ) (h : ∀ i, i < N → mem i = mem2 i) :
    arm_var_f32_resultWrites mem N = [arm_var_f32 mem N] ∧
    arm_var_f32 mem N = arm_var_f32 mem2 N := by
  constructor
  · unfold arm_var_f32_resultWrites arm_var_f32
    by_cases hN : N ≤ 1
    · rw [if_pos hN, if_pos hN]
    · rw [if_neg hN, if_neg hN]
  · rw [arm_var_f32_eq_list, arm_var_f32_eq_list]
    unfold prefixVec
    rw [walk_congr mem mem2 N 0 (fun i h1 hlt => h i (by omega))]

theorem claimC8_witness :
    arm_var_f32_resultWrites (fun _ : ℕ => F32.ofInt 1) 3
        = [arm_var_f32 (fun _ : ℕ => F32.ofInt 1) 3] ∧
    arm_var_f32 (fun _ : ℕ => F32.ofInt 1) 3
        = arm_var_f32 (fun i => if i < 3 then F32.ofInt 1 else F32.nan) 3 :=
  claimC8 (fun _ => F32.ofInt 1) (fun i => if i < 3 then F32.ofInt 1 else F32.nan) 3
    (fun _ hi => (if_pos hi).symm)

/-- C9: for `blockSize ≥ 2`, each pass reads exactly the first `blockSize`
elements: `4*(blockSize >> 2) + blockSize % 4 = blockSize`, the unrolled
loops advance the pointer by `4*(blockSize >> 2)`, the remainder loops
finish at exactly `blockSize`, and no element at index `≥ blockSize`
influences the result. -/
theorem claimC9 (mem mem2 : ℕ → F32) (N : ℕ) (h2 : 2 ≤ N)
    (hagree : ∀ i, i < N → mem i = mem2 i) :
    (4 * (N >>> 2) + N % 4 = N) ∧
    (∀ acc : F32, (pass1Unroll mem 0 (N >>> 2) acc).1 = 4 * (N >>> 2)) ∧
    (∀ acc : F32, (pass1Tail mem (4 * (N >>> 2)) (N % 4) acc).1 = N) ∧
    (∀ (fMean acc : F32), (pass2Unroll mem fMean 0 (N >>> 2) acc).1 = 4 * (N >>> 2)) ∧
    (∀ (fMean acc : F32), (pass2Tail mem fMean (4 * (N >>> 2)) (N % 4) acc).1 = N) ∧
    arm_var_f32 mem N = arm_var_f32 mem2 N := by
  refine ⟨blockSize_split N, ?_, ?_, ?_, ?_, ?_⟩
  · intro acc
    rw [pass1Unroll_eq]
    simp
  · intro acc
    rw [pass1Tail_eq]
    show 4 * (N >>> 2) + N % 4 = N
    exact blockSize_split N
  · intro fMean acc
    rw [pass2Unroll_eq]
    simp
  · intro fMean acc
    rw [pass2Tail_eq]
    show 4 * (N >>> 2) + N % 4 = N
    exact blockSize_split N
  · rw [arm_var_f32_eq_list, arm_var_f32_eq_list]
    unfold prefixVec
    rw [walk_congr mem mem2 N 0 (fun i h1 hlt => hagree i (by omega))]

theorem claimC9_witness :
    (4 * (5 >>> 2) + 5 % 4 = 5) ∧
    (∀ acc : F32, (pass1Unroll (fun _ : ℕ => F32.ofInt 1) 0 (5 >>> 2) acc).1 = 4 * (5 >>> 2)) ∧
    (∀ acc : F32, (pass1Tail (fun _ : ℕ => F32.ofInt 1) (4 * (5 >>> 2)) (5 % 4) acc).1 = 5) ∧
    (∀ (fMean acc : F32),
      (pass2Unroll (fun _ : ℕ => F32.ofInt 1) fMean 0 (5 >>> 2) acc).1 = 4 * (5 >>> 2)) ∧
    (∀ (fMean acc : F32),
      (pass2Tail (fun _ : ℕ => F32.ofInt 1) fMean (4 * (5 >>> 2)) (5 % 4) acc).1 = 5) ∧
    arm_var_f32 (fun _ : ℕ => F32.ofInt 1) 5
        = arm_var_f32 (fun i => if i < 5 then F32.ofInt 1 else F32.nan) 5 :=
  claimC9 (fun _ => F32.ofInt 1) (fun i => if i < 5 then F32.ofInt 1 else F32.nan) 5
    (by decide) (fun _ hi => (if_pos hi).symm)

/-- C10: for `blockSize ≤ 1` the kernel stores `+0.0f` once and returns
without reading any input element: the result (and the whole observable
behaviour) is independent of the memory contents. -/
theorem claimC10 (mem mem2 : ℕ → F32) (N : ℕ) (h : N ≤ 1) :
    arm_var_f32 mem N = F32.zero false ∧
    arm_var_f32_cm0_cm3 mem N = F32.zero false ∧
    arm_var_f32_resultWrites mem N = [F32.zero false] ∧
    arm_var_f32 mem N = arm_var_f32 mem2 N := by
  simp [arm_var_f32, arm_var_f32_cm0_cm3, arm_var_f32_resultWrites, if_pos h]

theorem claimC10_witness :
    arm_var_f32 (fun _ : ℕ => F32.nan) 1 = F32.zero false ∧
    arm_var_f32_cm0_cm3 (fun _ : ℕ => F32.nan) 1 = F32.zero false ∧
    arm_var_f32_resultWrites (fun _ : ℕ => F32.nan) 1 = [F32.zero false] ∧
    arm_var_f32 (fun _ : ℕ => F32.nan) 1 = arm_var_f32 (fun _ => F32.ofInt 7) 1 :=
  claimC10 (fun _ => F32.nan) (fun _ => F32.ofInt 7) 1 (by decide)

/-- C1 (corrected): for every input and `blockSize ≥ 2` the kernel computes
the two-pass unbiased variance — left-to-right float32 sum, divided by
`blockSize`, then the left-to-right float32 sum of squared deviations —
but the final divisor is `(float32)blockSize - 1.0f`, not
`(float32)(blockSize - 1)` as the claim words it.  The two divisors agree
whenever `blockSize ≤ 2^24` (second conjunct); they differ beyond that
(see the counterexample). -/
theorem claimC1 (mem : ℕ → F32) (N : ℕ) (h2 : 2 ≤ N) :
    arm_var_f32 mem N
      = F32.div
          (sqDevSum (F32.div (sumF32 (prefixVec mem N)) (F32.ofNat32 N)) (prefixVec mem N))
          (F32.sub (F32.ofNat32 N) (F32.ofInt 1))
    ∧ (N ≤ 2 ^ 24 → arm_var_f32 mem N = varSpecC1 (prefixVec mem N)) := by
  constructor
  · rw [arm_var_f32_eq_list]
    unfold varTwoPass
    rw [show (prefixVec mem N).length = N from walk_length mem N 0]
    rw [if_neg (by omega)]
  · intro h24
    rw [arm_var_f32_eq_list]
    unfold varTwoPass varSpecC1
    rw [show (prefixVec mem N).length = N from walk_length mem N 0]
    rw [if_neg (by omega), divisor_exact N h2 h24]

theorem claimC1_witness :
    arm_var_f32 mem8 5
      = F32.div
          (sqDevSum (F32.div (sumF32 (prefixVec mem8 5)) (F32.ofNat32 5)) (prefixVec mem8 5))
          (F32.sub (F32.ofNat32 5) (F32.ofInt 1))
    ∧ (5 ≤ 2 ^ 24 → arm_var_f32 mem8 5 = varSpecC1 (prefixVec mem8 5)) :=
  claimC1 mem8 5 (by decide)

/-- C1 counterexample to the claim's divisor reading: at
`blockSize = 2^24 + 3 = 16777219` with input `[2^25, 0, 0, ...]`, the
code's divisor `(float32)blockSize - 1.0f` rounds to `16777220`, the
claim's `(float32)(blockSize - 1)` rounds to `16777218`, and the two
final quotients differ (`16777210 * 2^2` versus `16777212 * 2^2`). -/
theorem claimC1_cex :
    arm_var_f32 memC1 16777219 ≠ varSpecC1 (prefixVec memC1 16777219) := by
  have hpre : prefixVec memC1 16777219
      = F32.ofInt 33554432 :: List.replicate 16777218 (F32.zero false) := by
    have h := prefix_memC1 16777218
    norm_num at h
    exact h
  have hlen : (prefixVec memC1 16777219).length = 16777219 := walk_length memC1 16777219 0
  have hsum : sumF32 (prefixVec memC1 16777219) = F32.fin 8388608 2 := by
    rw [hpre]
    unfold sumF32
    rw [List.foldl_cons]
    rw [show F32.add (F32.zero false) (F32.ofInt 33554432) = F32.fin 8388608 2 from by decide]
    exact foldl_absorb F32.add (F32.zero false) 16777218 _ rfl
  have hfN : F32.ofNat32 16777219 = F32.fin 8388610 1 := by decide
  have hmean : F32.div (F32.fin 8388608 2) (F32.fin 8388610 1) = F32.fin 16777212 (-23) := by
    decide
  have hstep0 : sqDevStep (F32.fin 16777212 (-23)) (F32.zero false) (F32.ofInt 33554432)
      = F32.fin 16777214 26 := by decide
  have habsorb : sqDevStep (F32.fin 16777212 (-23)) (F32.fin 16777214 26) (F32.zero false)
      = F32.fin 16777214 26 := by decide
  have hsq : sqDevSum (F32.fin 16777212 (-23)) (prefixVec memC1 16777219)
      = F32.fin 16777214 26 := by
    rw [hpre]
    unfold sqDevSum
    rw [List.foldl_cons, hstep0]
    exact foldl_absorb _ _ 16777218 _ habsorb
  have hdivc : F32.sub (F32.ofNat32 16777219) (F32.ofInt 1) = F32.fin 8388610 1 := by decide
  have hdivs : F32.ofNat32 (16777219 - 1) = F32.fin 8388609 1 := by decide
  have hresc : F32.div (F32.fin 16777214 26) (F32.fin 8388610 1) = F32.fin 16777210 2 := by
    decide
  have hress : F32.div (F32.fin 16777214 26) (F32.fin 8388609 1) = F32.fin 16777212 2 := by
    decide
  have hcode : arm_var_f32 memC1 16777219 = F32.fin 16777210 2 := by
    rw [arm_var_f32_eq_list]
    unfold varTwoPass
    rw [hlen]
    rw [if_neg (by norm_num)]
    rw [hsum, hdivc, hfN, hmean, hsq, hresc]
  have hspec : varSpecC1 (prefixVec memC1 16777219) = F32.fin 16777212 2 := by
    unfold varSpecC1
    rw [hlen]
    rw [hsum, hfN, hmean, hsq, hdivs, hress]
  rw [hcode, hspec]
  decide

/-- C7 (corrected): a constant vector of a finite value `c` with
`2 ≤ blockSize ≤ 2^32` yields exactly `+0.0f` provided the computed mean
is exactly `c` (the claim's own "up to floating-point rounding of the
mean" proviso, made precise).  When the mean rounds away from `c`, or the
constant is not finite, the result need not be zero
(see the counterexample). -/
theorem claimC7 (mem : ℕ → F32) (N : ℕ) (c : F32) (h2 : 2 ≤ N) (hN : N ≤ 2 ^ 32)
    (hfin : c.isFinite = true) (hconst : ∀ i, i < N → mem i = c)
    (hmean : F32.div (sumF32 (prefixVec mem N)) (F32.ofNat32 N) = c) :
    arm_var_f32 mem N = F32.zero false := by
  rw [arm_var_f32_eq_list]
  unfold varTwoPass
  rw [show (prefixVec mem N).length = N from walk_length mem N 0]
  rw [if_neg (by omega)]
  rw [hmean]
  have hall : ∀ x ∈ prefixVec mem N, x = c := by
    intro x hx
    obtain ⟨i, hi, hxe⟩ := walk_all mem N 0 x hx
    rw [hxe, Nat.zero_add]
    exact hconst i hi
  rw [show sqDevSum c (prefixVec mem N) = F32.zero false from
    foldl_sqDev_const c hfin (prefixVec mem N) hall]
  obtain ⟨md, ed, hD, hmd⟩ := divisor_pos N h2 hN
  rw [hD]
  show F32.zero (Bool.xor false (decide (md < 0))) = F32.zero false
  rw [decide_eq_false (not_lt.mpr (le_of_lt hmd))]
  rfl

theorem claimC7_witness :
    (∀ i, i < 3 → (fun _ : ℕ => F32.ofInt 1) i = F32.ofInt 1) ∧
    F32.div (sumF32 (prefixVec (fun _ : ℕ => F32.ofInt 1) 3)) (F32.ofNat32 3) = F32.ofInt 1 ∧
    arm_var_f32 (fun _ : ℕ => F32.ofInt 1) 3 = F32.zero false :=
  ⟨fun _ _ => rfl, by decide,
    claimC7 (fun _ => F32.ofInt 1) 3 (F32.ofInt 1) (by decide) (by decide) (by decide)
      (fun _ _ => rfl) (by decide)⟩

/-- C7 counterexample to the original wording: the constant vector
`[+inf, +inf]` has every element equal, yet the kernel computes
`inf - inf = NaN` in pass 2 and writes NaN, not zero. -/
theorem claimC7_cex :
    (∀ i, i < 2 → (fun _ : ℕ => F32.inf false) i = F32.inf false) ∧
    arm_var_f32 (fun _ : ℕ => F32.inf false) 2 = F32.nan ∧
    F32.nan ≠ F32.zero false :=
  ⟨fun _ _ => rfl, by decide, by decide⟩

theorem repOrZeroInt (z : ℤ) (h : |z| ≤ 2 ^ 24) : (z:ℚ) = 0 ∨ RepF32 (z:ℚ) := by
  by_cases h0 : z = 0
  · left
    rw [h0]
    norm_num
  · right
    exact repF32_int z h0 h

/-- C6 (amended to integer inputs of magnitude at most 1024): for two
elements holding the integers `a` and `b`, the kernel with `blockSize = 2`
computes exactly `(a-b)^2 / 2` — every intermediate rounding is exact in
that range.  For general float32 inputs the claim fails: the two-element
variance is NOT always exact (see the counterexample). -/
theorem claimC6 (a b : ℤ) (ha : |a| ≤ 1024) (hb : |b| ≤ 1024) :
    F32.val (arm_var_f32 (memPair a b) 2) = some ((((a:ℚ) - (b:ℚ)) ^ 2) / 2) := by
  rw [arm_var_f32_eq_list]
  rw [show prefixVec (memPair a b) 2 = [F32.ofInt a, F32.ofInt b] from rfl]
  unfold varTwoPass
  rw [show ([F32.ofInt a, F32.ofInt b] : List F32).length = 2 from rfl]
  rw [if_neg (by norm_num)]
  unfold sqDevSum sumF32
  simp only [List.foldl_cons, List.foldl_nil]
  unfold sqDevStep
  have hm1 : (2:ℚ) ^ (-1:ℤ) = 1/2 := by norm_num
  have hm2 : (2:ℚ) ^ (-2:ℤ) = 1/4 := by norm_num
  have ha24 : |a| < 2 ^ 24 := lt_of_le_of_lt ha (by norm_num)
  have hb24 : |b| < 2 ^ 24 := lt_of_le_of_lt hb (by norm_num)
  have habsab : |a + b| ≤ 2 ^ 24 := by linarith [abs_add a b]
  have habsub : |a - b| ≤ 2 ^ 24 := by linarith [abs_sub a b]
  have habsub' : |b - a| ≤ 2 ^ 24 := by linarith [abs_sub b a]
  have hsqbound : |(a - b) ^ 2| ≤ 2 ^ 24 := by
    have h1 : (a - b) ^ 2 = |a - b| ^ 2 := (sq_abs (a - b)).symm
    have habsub2 : |a - b| ≤ 2048 := by linarith [abs_sub a b]
    have h2 : |a - b| ^ 2 ≤ 2048 ^ 2 := pow_le_pow_left₀ (abs_nonneg _) habsub2 2
    have h3 : |(a - b) ^ 2| = (a - b) ^ 2 := abs_of_nonneg (sq_nonneg _)
    omega
  have hA : Vals (F32.ofInt a) (a:ℚ) := vals_ofInt a ha24
  have hB : Vals (F32.ofInt b) (b:ℚ) := vals_ofInt b hb24
  have hz : Vals (F32.zero false) 0 := vals_zero false
  have hs1' := vals_add _ _ _ _ hz hA (by rw [zero_add]; exact repOrZeroInt a (le_of_lt ha24))
  have hs1 := vals_congr _ _ _ hs1' (zero_add _)
  have hcastab : (a:ℚ) + (b:ℚ) = ((a + b : ℤ):ℚ) := by push_cast; ring
  have hS := vals_add _ _ _ _ hs1 hB (by rw [hcastab]; exact repOrZeroInt (a+b) habsab)
  have hTwo : Vals (F32.ofNat32 2) 2 := by
    rw [show F32.ofNat32 2 = F32.fin 8388608 (-22) from by decide]
    exact vals_fin _ _ _ (by norm_num)
  have hM := vals_div _ _ _ _ hS hTwo (by norm_num)
    (by
      by_cases h0 : (a:ℚ) + b = 0
      · exact Or.inl h0
      · right
        have hz' : a + b ≠ 0 := by
          intro hc
          apply h0
          have hcc : ((a + b : ℤ):ℚ) = 0 := by rw [hc]; norm_num
          push_cast at hcc
          exact hcc
        have hlt' : |a + b| < 2 ^ 24 := by
          have h' : |a + b| ≤ 2048 := by linarith [abs_add a b]
          omega
        have hr := repF32_of (a + b) (-1) hz' hlt' (by norm_num) (by norm_num)
        rwa [show ((a + b : ℤ):ℚ) * 2 ^ (-1:ℤ) = ((a:ℚ) + b) / 2 from by
          push_cast
          rw [hm1]
          ring] at hr)
  have e1 : (a:ℚ) - ((a:ℚ) + (b:ℚ)) / 2 = ((a - b : ℤ):ℚ) * 2 ^ (-1:ℤ) := by
    push_cast
    rw [hm1]
    ring
  have hd1' := vals_sub _ _ _ _ hA hM
    (by rw [e1]; exact repOrZeroScaled (a - b) (-1) habsub (by norm_num) (by norm_num))
  have hd1 := vals_congr _ _ _ hd1' e1
  have e2 : (((a - b : ℤ):ℚ) * 2 ^ (-1:ℤ)) * (((a - b : ℤ):ℚ) * 2 ^ (-1:ℤ))
      = (((a - b) ^ 2 : ℤ):ℚ) * 2 ^ (-2:ℤ) := by
    push_cast
    rw [hm1, hm2]
    ring
  have hsq1' := vals_mul _ _ _ _ hd1 hd1
    (by rw [e2]; exact repOrZeroScaled ((a - b) ^ 2) (-2) hsqbound (by norm_num) (by norm_num))
  have hsq1 := vals_congr _ _ _ hsq1' e2
  have hacc1' := vals_add _ _ _ _ hz hsq1
    (by rw [zero_add]
        exact repOrZeroScaled ((a - b) ^ 2) (-2) hsqbound (by norm_num) (by norm_num))
  have hacc1 := vals_congr _ _ _ hacc1' (zero_add _)
  have e3 : (b:ℚ) - ((a:ℚ) + (b:ℚ)) / 2 = ((b - a : ℤ):ℚ) * 2 ^ (-1:ℤ) := by
    push_cast
    rw [hm1]
    ring
  have hd2' := vals_sub _ _ _ _ hB hM
    (by rw [e3]; exact repOrZeroScaled (b - a) (-1) habsub' (by norm_num) (by norm_num))
  have hd2 := vals_congr _ _ _ hd2' e3
  have e4 : (((b - a : ℤ):ℚ) * 2 ^ (-1:ℤ)) * (((b - a : ℤ):ℚ) * 2 ^ (-1:ℤ))
      = (((a - b) ^ 2 : ℤ):ℚ) * 2 ^ (-2:ℤ) := by
    push_cast
    rw [hm1, hm2]
    ring
  have hsq2' := vals_mul _ _ _ _ hd2 hd2
    (by rw [e4]; exact repOrZeroScaled ((a - b) ^ 2) (-2) hsqbound (by norm_num) (by norm_num))
  have hsq2 := vals_congr _ _ _ hsq2' e4
  have e5 : (((a - b) ^ 2 : ℤ):ℚ) * 2 ^ (-2:ℤ) + (((a - b) ^ 2 : ℤ):ℚ) * 2 ^ (-2:ℤ)
      = (((a - b) ^ 2 : ℤ):ℚ) * 2 ^ (-1:ℤ) := by
    rw [hm1, hm2]
    ring
  have hacc2' := vals_add _ _ _ _ hacc1 hsq2
    (by rw [e5]; exact repOrZeroScaled ((a - b) ^ 2) (-1) hsqbound (by norm_num) (by norm_num))
  have hacc2 := vals_congr _ _ _ hacc2' e5
  have hDiv : Vals (F32.sub (F32.ofNat32 2) (F32.ofInt 1)) 1 := by
    rw [show F32.sub (F32.ofNat32 2) (F32.ofInt 1) = F32.fin 8388608 (-23) from by decide]
    exact vals_fin _ _ _ (by norm_num)
  have hfin' := vals_div _ _ _ _ hacc2 hDiv (by norm_num)
    (by rw [div_one]
        exact repOrZeroScaled ((a - b) ^ 2) (-1) hsqbound (by norm_num) (by norm_num))
  have efin : (((a - b) ^ 2 : ℤ):ℚ) * 2 ^ (-1:ℤ) / 1 = (((a:ℚ) - (b:ℚ)) ^ 2) / 2 := by
    rw [div_one]
    push_cast
    rw [hm1]
    ring
  have hfin := vals_congr _ _ _ hfin' efin
  exact vals_val _ _ hfin

theorem claimC6_witness :
    |(3:ℤ)| ≤ 1024 ∧ |(1:ℤ)| ≤ 1024 ∧
    F32.val (arm_var_f32 (memPair 3 1) 2)
      = some (((((3:ℤ):ℚ) - ((1:ℤ):ℚ)) ^ 2) / 2) :=
  ⟨by decide, by decide, claimC6 3 1 (by decide) (by decide)⟩

/-- C6 counterexample to the original "exact for every two elements"
claim: for `a = 1.0f` and `b = 2^-24` (both exactly representable) the
kernel returns `16777214 * 2^-25`, while the exact value
`(1 - 2^-24)^2 / 2` is `(2^48 - 2^25 + 1) / 2^49` — they differ by
`2^-49`. -/
theorem claimC6_cex :
    memC6 0 = F32.fin 8388608 (-23) ∧
    F32.val (F32.fin 8388608 (-23)) = some 1 ∧
    memC6 1 = F32.fin 8388608 (-47) ∧
    F32.val (F32.fin 8388608 (-47)) = some ((2:ℚ) ^ (-24:ℤ)) ∧
    arm_var_f32 memC6 2 = F32.fin 16777214 (-25) ∧
    F32.val (arm_var_f32 memC6 2) ≠ some ((((1:ℚ) - 2 ^ (-24:ℤ)) ^ 2) / 2) := by
  refine ⟨rfl, ?_, rfl, ?_, by decide, ?_⟩
  · show some ((8388608:ℚ) * 2 ^ (-23:ℤ)) = some 1
    norm_num
  · show some ((8388608:ℚ) * 2 ^ (-47:ℤ)) = some ((2:ℚ) ^ (-24:ℤ))
    norm_num
  · rw [show arm_var_f32 memC6 2 = F32.fin 16777214 (-25) from by decide]
    show some ((16777214:ℚ) * 2 ^ (-25:ℤ)) ≠ some ((((1:ℚ) - 2 ^ (-24:ℤ)) ^ 2) / 2)
    intro h
    have h' := Option.some.injEq _ _ ▸ h
    norm_num at h'
